import Mathlib

/-!
# Verification of `internal/frontend/doc.go`

A shallow embedding of the documentation helpers of the frontend:

* `hackUpDocumentation`, the regular-expression rewrite of cross-package links,
* `fetchDocumentationDetails`, which applies it when the environment toggle is set,
* `fileSource`, which builds the "view source" location of a file.

`docBytes` is modelled as the list of runes (`Char`) that Go's `regexp` decodes
from the byte slice: every literal of `packageLinkRegexp` is ASCII and both of
its character classes and `.` treat all non-ASCII runes alike, so matching on
runes and copying runes is what the engine does on the bytes.

Go's `regexp` package is modelled by a backtracking interpreter that lists the
ways a pattern can match at a position in the engine's order of preference
(leftmost-first, Perl-like); `ReplaceAll` takes the first of them at the
leftmost position where the list is not empty.
-/

namespace Pkgsite

/-! ## Go's `regexp`: syntax tree -/

/-- Regular expression syntax tree, with the operators of Go's `regexp/syntax`
that `packageLinkRegexp` parses to. `greedy = false` is the `NonGreedy` flag. -/
inductive Regex where
  | emptyMatch : Regex
  | literal (s : List Char) : Regex
  | charClass (negated : Bool) (set : List Char) : Regex
  | anyCharNotNL : Regex
  | capture (idx : Nat) (sub : Regex) : Regex
  | star (greedy : Bool) (sub : Regex) : Regex
  | plus (greedy : Bool) (sub : Regex) : Regex
  | quest (greedy : Bool) (sub : Regex) : Regex
  | concat (r s : Regex) : Regex
  | alternate (r s : Regex) : Regex

/-- Submatch table: entry `i` is the text of capture group `i`, `none` while the
group has not taken part in the match (Go's `-1` positions). -/
abbrev Caps := List (Option (List Char))

/-- One way of matching: the text consumed, the input left, and the submatches. -/
structure Thread where
  consumed : List Char
  rest : List Char
  caps : Caps
deriving DecidableEq, Repr

/-- Match a single rune accepted by `p`. -/
def stepChar (p : Char → Bool) (s : List Char) (caps : Caps) : List Thread :=
  match s with
  | [] => []
  | c :: t => if p c then [⟨[c], t, caps⟩] else []

/-- Sequence: continue every thread of `ts` with `k`, keeping the order of preference. -/
def seqThreads (ts : List Thread) (k : List Char → Caps → List Thread) : List Thread :=
  ts.flatMap (fun t => (k t.rest t.caps).map (fun u => ⟨t.consumed ++ u.consumed, u.rest, u.caps⟩))

/-- Repetition of `step`, at most `n` times. A greedy repetition prefers one more
iteration to stopping, a non-greedy one prefers stopping. An iteration that
consumes nothing is not repeated. -/
def starRun (greedy : Bool) (step : List Char → Caps → List Thread) :
    Nat → List Char → Caps → List Thread
  | 0, s, caps => [⟨[], s, caps⟩]
  | n + 1, s, caps =>
    let more := seqThreads ((step s caps).filter (fun t => !t.consumed.isEmpty))
      (starRun greedy step n)
    if greedy then more ++ [⟨[], s, caps⟩] else ⟨[], s, caps⟩ :: more

/-- All the ways `r` matches a prefix of `s`, most preferred first. A repetition
is given as many iterations as `s` has runes, which it cannot exceed since every
iteration consumes at least one. -/
def Regex.run : Regex → List Char → Caps → List Thread
  | .emptyMatch, s, caps => [⟨[], s, caps⟩]
  | .literal l, s, caps => if l.isPrefixOf s then [⟨l, s.drop l.length, caps⟩] else []
  | .charClass negated set, s, caps => stepChar (fun c => set.contains c != negated) s caps
  | .anyCharNotNL, s, caps => stepChar (fun c => c != '\n') s caps
  | .capture idx sub, s, caps =>
    (sub.run s caps).map (fun t => ⟨t.consumed, t.rest, t.caps.set idx (some t.consumed)⟩)
  | .star greedy sub, s, caps => starRun greedy sub.run s.length s caps
  | .plus greedy sub, s, caps =>
    seqThreads (sub.run s caps) (fun s1 caps1 => starRun greedy sub.run s1.length s1 caps1)
  | .quest greedy sub, s, caps =>
    if greedy then sub.run s caps ++ [⟨[], s, caps⟩] else ⟨[], s, caps⟩ :: sub.run s caps
  | .concat r1 r2, s, caps => seqThreads (r1.run s caps) r2.run
  | .alternate r1 r2, s, caps => r1.run s caps ++ r2.run s caps

/-- Number of capture groups of a pattern (Go's `NumSubexp`). -/
def Regex.numSubexp : Regex → Nat
  | .capture idx sub => max idx sub.numSubexp
  | .star _ sub => sub.numSubexp
  | .plus _ sub => sub.numSubexp
  | .quest _ sub => sub.numSubexp
  | .concat r1 r2 => max r1.numSubexp r2.numSubexp
  | .alternate r1 r2 => max r1.numSubexp r2.numSubexp
  | _ => 0

/-- The match of `re` that starts exactly at the head of `s`, if there is one: the
most preferred thread, with group 0 set to the whole match. -/
def Regex.matchAt (re : Regex) (s : List Char) : Option Thread :=
  match re.run s (List.replicate (re.numSubexp + 1) none) with
  | [] => none
  | t :: _ => some ⟨t.consumed, t.rest, t.caps.set 0 (some t.consumed)⟩

/-! ## Go's `regexp`: replacement templates -/

/-- A piece of a replacement template: literal text, or a `$name` reference. -/
inductive TemplatePart where
  | text (s : List Char) : TemplatePart
  | ref (name : List Char) : TemplatePart
deriving DecidableEq, Repr

/-- Runes that may stand in a `$name` reference: ASCII letters, digits and the
underscore. Go's `extract` also takes letters and digits outside ASCII; the
template of `doc.go` is ASCII, so the two agree on it. -/
def isNameChar (c : Char) : Bool := c.isAlphanum || c == '_'

/-- State of the template scanner. -/
inductive ScanState where
  | inText : ScanState
  | afterDollar : ScanState
  | inName (name : List Char) : ScanState
  | inBraces (name : List Char) : ScanState

/-- Scan a template as Go's `expand` and `extract` do: `$$` is a dollar sign,
`$name` takes the longest run of name runes, `${name}` takes the name between the
braces, and a `$` followed by neither is raw text. -/
def scanTemplate : ScanState → List Char → List TemplatePart
  | .inText, [] => []
  | .inText, c :: t =>
    if c == '$' then scanTemplate .afterDollar t else .text [c] :: scanTemplate .inText t
  | .afterDollar, [] => [.text ['$']]
  | .afterDollar, c :: t =>
    if c == '$' then .text ['$'] :: scanTemplate .inText t
    else if c == '\x7b' then
      (if (t.dropWhile isNameChar).head? == some '\x7d' ∧ (t.takeWhile isNameChar) ≠ []
       then scanTemplate (.inBraces []) t
       else .text ['$', c] :: scanTemplate .inText t)
    else if isNameChar c then scanTemplate (.inName [c]) t
    else .text ['$', c] :: scanTemplate .inText t
  | .inName name, [] => [.ref name]
  | .inName name, c :: t =>
    if isNameChar c then scanTemplate (.inName (name ++ [c])) t
    else if c == '$' then .ref name :: scanTemplate .afterDollar t
    else .ref name :: .text [c] :: scanTemplate .inText t
  | .inBraces name, [] => [.ref name]
  | .inBraces name, c :: t =>
    if c == '\x7d' then .ref name :: scanTemplate .inText t
    else scanTemplate (.inBraces (name ++ [c])) t

/-- Decimal value of a group name, as `extract` computes it: `none` (Go's `-1`)
when a rune is not a digit, when the value read so far has reached `10^8`, or
when the name has a leading zero. -/
def groupIndex (name : List Char) : Option Nat :=
  let num := name.foldl
    (fun acc c => acc.bind (fun n =>
      if c.isDigit && n < 100000000 then some (10 * n + (c.toNat - '0'.toNat)) else none))
    (some 0)
  if name.head? == some '0' && 1 < name.length then none else num

/-- Text a template part expands to: a numbered reference gives the text of that
group, and nothing when the group is out of range or did not take part; a
reference by name gives nothing, as the patterns here have no named group. -/
def expandPart (caps : Caps) : TemplatePart → List Char
  | .text s => s
  | .ref name =>
    match groupIndex name with
    | some i => ((caps.get? i).getD none).getD []
    | none => []

/-- Go's `Regexp.expand`: the template with its references replaced by submatches. -/
def expand (template : List Char) (caps : Caps) : List Char :=
  ((scanTemplate .inText template).map (expandPart caps)).flatten

/-! ## Go's `regexp`: `ReplaceAll` -/

/-- The loop of `Regexp.replaceAll`, one rune of input per step. `skip` is the
number of runes still inside the last match; `atMatchEnd` says the position is
the end of the last match, where an empty match is not replaced again. At a
position outside a match the pattern is tried: on success the expanded template
is emitted and the matched runes are skipped, and after an empty match or no
match the rune at the position is copied. -/
def replaceAllAux (re : Regex) (template : List Char) : Nat → Bool → List Char → List Char
  | _, atMatchEnd, [] =>
    match re.matchAt [] with
    | some m => if atMatchEnd then [] else expand template m.caps
    | none => []
  | skip + 1, atMatchEnd, _ :: t => replaceAllAux re template skip atMatchEnd t
  | 0, atMatchEnd, c :: t =>
    match re.matchAt (c :: t) with
    | none => c :: replaceAllAux re template 0 false t
    | some m =>
      if m.consumed.isEmpty then
        (if atMatchEnd then [] else expand template m.caps)
          ++ c :: replaceAllAux re template 0 false t
      else
        expand template m.caps ++ replaceAllAux re template (m.consumed.length - 1) true t

/-- Go's `Regexp.ReplaceAll`: a copy of `src` with every non-overlapping match of
`re`, leftmost first, replaced by the expansion of `template`. -/
def Regex.ReplaceAll (re : Regex) (src template : List Char) : List Char :=
  replaceAllAux re template 0 false src

/-! ## `doc.go` -/

/-- The second group of the link pattern, `([^?#"]+)`: the path. -/
def linkPath : Regex :=
  .capture 2 (.plus true (.charClass true ['?', '#', '"']))

/-- The optional fragment of the link pattern, `(?:#[^"]*)?`. -/
def linkFragment : Regex :=
  .quest true (.concat (.literal ['#']) (.star true (.charClass true ['"'])))

/-- The third group of the link pattern, `((?:#[^"]*)?">.*?</a>)`: the fragment,
the end of the opening tag, the link text and the closing tag. -/
def linkTail : Regex :=
  .capture 3
    (.concat linkFragment
      (.concat (.literal "\">".toList)
        (.concat (.star false .anyCharNotNL) (.literal "</a>".toList))))

/-- The pattern `(<a href="/)pkg/([^?#"]+)((?:#[^"]*)?">.*?</a>)` of `doc.go`. -/
def packageLinkRegexp : Regex :=
  .concat (.capture 1 (.literal "<a href=\"/".toList))
    (.concat (.literal "pkg/".toList) (.concat linkPath linkTail))

/-- The function `hackUpDocumentation` of `doc.go`. -/
def hackUpDocumentation (docBytes : List Char) : List Char :=
  packageLinkRegexp.ReplaceAll docBytes "$1$2?tab=doc$3".toList

/-- The fields of `internal.VersionedPackage` that `fetchDocumentationDetails` reads. -/
structure VersionedPackage where
  DocumentationHTML : List Char
  GOOS : String
  GOARCH : String

/-- The struct `DocumentationDetails`: data for the doc template. -/
structure DocumentationDetails where
  GOOS : String
  GOARCH : String
  Documentation : List Char

/-- Go's `os.Getenv`: the value of the variable, the empty string when it is not set. -/
def Getenv (environ : String → Option String) (key : String) : String :=
  (environ key).getD ""

/-- The initial value of the package variable `doDocumentationHack`. -/
def doDocumentationHack (environ : String → Option String) : Bool :=
  Getenv environ "GO_DISCOVERY_DOCUMENTATION_HACK" == "TRUE"

/-- The function `fetchDocumentationDetails` of `doc.go`. `hack` is the value of
the package variable `doDocumentationHack`; the arguments `ctx` and `ds` are not
used by the function. The second component is the error, `none` for `nil`. -/
def fetchDocumentationDetails (hack : Bool) (pkg : VersionedPackage) :
    DocumentationDetails × Option String :=
  let docBytes := pkg.DocumentationHTML
  let docBytes := if hack then hackUpDocumentation docBytes else docBytes
  (⟨pkg.GOOS, pkg.GOARCH, docBytes⟩, none)

/-- What `fileSource` uses of package `stdlib`, which is declared elsewhere: the
module path of the standard library, the URL of the Go repository, and the
function from a version to its tag, which returns a tag or an error. -/
structure Stdlib where
  ModulePath : String
  GoRepoURL : String
  TagForVersion : String → Except String String

/-- Go's `strings.TrimPrefix`: `s` without the leading `pre`, and `s` itself when
it does not start with `pre`. -/
def TrimPrefix (s pre : String) : String :=
  if pre.toList.isPrefixOf s.toList then String.mk (s.toList.drop pre.toList.length) else s

/-- Severity of a log entry. -/
inductive Severity where
  | Info : Severity
  | Error : Severity
deriving DecidableEq

/-- An entry written through package `log`. -/
structure LogEntry where
  severity : Severity
  message : String
deriving DecidableEq

/-- The function `fileSource` of `doc.go`, with the log it writes to passed in and
returned. `fmt.Sprintf` with `%s` verbs on strings is concatenation, and `%v` of an
error is its message. -/
def fileSource (std : Stdlib) (modulePath version filePath : String) (log : List LogEntry) :
    String × List LogEntry :=
  if modulePath != std.ModulePath then
    (modulePath ++ "@" ++ version ++ "/" ++ filePath, log)
  else
    let root := TrimPrefix std.GoRepoURL "https://"
    match std.TagForVersion version with
    | .error err =>
      (root ++ "/+/refs/heads/master/" ++ filePath, log ++ [⟨.Error, "fileSource: " ++ err⟩])
    | .ok tag => (root ++ "/+/refs/tags/" ++ tag ++ "/" ++ filePath, log)

/-! ## Vocabulary of the properties -/

/-- An internal anchor `<a href="/pkg/` path fragment `">` text `</a>`. -/
structure Anchor where
  path : List Char
  fragment : List Char
  text : List Char

/-- A well-formed internal anchor: the path is not empty and has none of `?`, `#`
and `"`; the fragment part is empty or a `#` followed by runes other than `"`; the
link text has no newline and no `</a>`. -/
def Anchor.WellFormed (a : Anchor) : Prop :=
  a.path ≠ [] ∧ (∀ c ∈ a.path, c ≠ '?' ∧ c ≠ '#' ∧ c ≠ '"') ∧
    (a.fragment = [] ∨ ∃ G, a.fragment = '#' :: G ∧ '"' ∉ G) ∧
    '\n' ∉ a.text ∧ ¬ "</a>".toList <:+: a.text

/-- The anchor as the documentation renderer wrote it. -/
def Anchor.source (a : Anchor) : List Char :=
  "<a href=\"/pkg/".toList ++ a.path ++ a.fragment ++ "\">".toList ++ a.text ++ "</a>".toList

/-- The anchor with `pkg/` dropped and `?tab=doc` put behind the path. -/
def Anchor.rewritten (a : Anchor) : List Char :=
  "<a href=\"/".toList ++ a.path ++ "?tab=doc".toList ++ a.fragment ++ "\">".toList ++ a.text
    ++ "</a>".toList

/-- A text, then anchors each followed by a text: `sep0 a1 sep1 a2 sep2 ...`, with
the anchors written by `render`. -/
def interleave (render : Anchor → List Char) (sep0 : List Char) :
    List (Anchor × List Char) → List Char
  | [] => sep0
  | (a, sep) :: rest => sep0 ++ render a ++ interleave render sep rest

/-- Number of bytes of the UTF-8 encoding of a text. -/
def byteLen (s : List Char) : Nat :=
  (s.map Char.utf8Size).sum

/-- Number of positions of a text at which the word `pat` occurs. -/
def countOcc (pat : List Char) : List Char → Nat
  | [] => 0
  | c :: t => (if pat.isPrefixOf (c :: t) then 1 else 0) + countOcc pat t

/-- Number of replacements the loop of `Regexp.replaceAll` makes: the recursion of
`replaceAllAux`, counting one where that one emits the expanded template. -/
def replaceCountAux (re : Regex) : Nat → Bool → List Char → Nat
  | _, atMatchEnd, [] =>
    match re.matchAt [] with
    | some _ => if atMatchEnd then 0 else 1
    | none => 0
  | skip + 1, atMatchEnd, _ :: t => replaceCountAux re skip atMatchEnd t
  | 0, atMatchEnd, c :: t =>
    match re.matchAt (c :: t) with
    | none => replaceCountAux re 0 false t
    | some m =>
      if m.consumed.isEmpty then
        (if atMatchEnd then 0 else 1) + replaceCountAux re 0 false t
      else
        1 + replaceCountAux re (m.consumed.length - 1) true t

/-- Number of non-overlapping matches of the link pattern that
`hackUpDocumentation` replaces in `docBytes`. -/
def matchCount (docBytes : List Char) : Nat :=
  replaceCountAux packageLinkRegexp 0 false docBytes

/-- An instance of package `stdlib` for the examples: the standard library is the
module `std`, its repository `https://go.googlesource.com/go`, and only the
version `v1.20.4` has a tag. -/
def exampleStdlib : Stdlib where
  ModulePath := "std"
  GoRepoURL := "https://go.googlesource.com/go"
  TagForVersion := fun version =>
    if version = "v1.20.4" then .ok "go1.20.4" else .error ("invalid version " ++ version)

/-! ## Lemmas on the interpreter -/

theorem seqThreads_nil (k : List Char → Caps → List Thread) : seqThreads [] k = [] := rfl

theorem seqThreads_cons (t : Thread) (ts : List Thread) (k : List Char → Caps → List Thread) :
    seqThreads (t :: ts) k =
      (k t.rest t.caps).map (fun u => ⟨t.consumed ++ u.consumed, u.rest, u.caps⟩)
        ++ seqThreads ts k := by
  simp [seqThreads]

theorem seqThreads_eq_nil {ts : List Thread} {k : List Char → Caps → List Thread}
    (h : ∀ t ∈ ts, k t.rest t.caps = []) : seqThreads ts k = [] := by
  simp only [seqThreads, List.flatMap_eq_nil_iff]
  intro t ht
  simp [h t ht]

/-- The most preferred thread of a sequence is the most preferred continuation of
the most preferred thread, when that one can be continued. -/
theorem seqThreads_head {ts : List Thread} {k : List Char → Caps → List Thread}
    {t u : Thread} (h1 : ts.head? = some t) (h2 : (k t.rest t.caps).head? = some u) :
    (seqThreads ts k).head? = some ⟨t.consumed ++ u.consumed, u.rest, u.caps⟩ := by
  cases ts with
  | nil => simp at h1
  | cons a l =>
    simp only [List.head?_cons, Option.some.injEq] at h1
    subst h1
    cases hk : k a.rest a.caps with
    | nil => simp [hk] at h2
    | cons b m =>
      simp only [hk, List.head?_cons, Option.some.injEq] at h2
      subst h2
      simp [seqThreads_cons, hk]

theorem run_literal_append (l s : List Char) (caps : Caps) :
    (Regex.literal l).run (l ++ s) caps = [⟨l, s, caps⟩] := by
  have h : l.isPrefixOf (l ++ s) = true := by
    rw [List.isPrefixOf_iff_prefix]; exact List.prefix_append l s
  simp [Regex.run, h]

theorem run_literal_of_mismatch {l s : List Char} (caps : Caps) (h : ¬ l <+: s) :
    (Regex.literal l).run s caps = [] := by
  have h1 : l.isPrefixOf s = false := by
    rw [← Bool.not_eq_true, List.isPrefixOf_iff_prefix]; exact h
  simp [Regex.run, h1]

theorem run_literal_eq_nil_of_head {l s : List Char} {a : Char} (caps : Caps)
    (hl : l.head? = some a) (hs : s.head? ≠ some a) : (Regex.literal l).run s caps = [] := by
  apply run_literal_of_mismatch
  rintro ⟨r, rfl⟩
  cases l with
  | nil => simp at hl
  | cons b l1 => simp at hl hs; exact hs hl


theorem mem_seqThreads {ts : List Thread} {k : List Char → Caps → List Thread} {x : Thread} :
    x ∈ seqThreads ts k ↔
      ∃ t ∈ ts, ∃ u ∈ k t.rest t.caps, x = ⟨t.consumed ++ u.consumed, u.rest, u.caps⟩ := by
  simp only [seqThreads, List.mem_flatMap, List.mem_map]
  constructor
  · rintro ⟨t, ht, u, hu, rfl⟩; exact ⟨t, ht, u, hu, rfl⟩
  · rintro ⟨t, ht, u, hu, rfl⟩; exact ⟨t, ht, u, hu, rfl⟩

theorem seqThreads_map_cons (c : Char) (ts : List Thread) (k : List Char → Caps → List Thread) :
    seqThreads (ts.map (fun t => ⟨c :: t.consumed, t.rest, t.caps⟩)) k =
      (seqThreads ts k).map (fun t => ⟨c :: t.consumed, t.rest, t.caps⟩) := by
  induction ts with
  | nil => rfl
  | cons a l ih => simp [seqThreads_cons, ih]

theorem stepChar_cons_true {p : Char → Bool} {c : Char} (h : p c = true) (t : List Char)
    (caps : Caps) : stepChar p (c :: t) caps = [⟨[c], t, caps⟩] := by
  simp [stepChar, h]

theorem stepChar_eq_nil {p : Char → Bool} {s : List Char} (caps : Caps)
    (h : ∀ c, s.head? = some c → p c = false) : stepChar p s caps = [] := by
  cases s with
  | nil => rfl
  | cons c t => simp [stepChar, h c rfl]

/-- One more iteration of a one-rune class on an accepted rune. -/
theorem starRun_stepChar_cons (g : Bool) {p : Char → Bool} {c : Char} (h : p c = true)
    (n : Nat) (s : List Char) (caps : Caps) :
    starRun g (stepChar p) (n + 1) (c :: s) caps =
      if g then
        (starRun g (stepChar p) n s caps).map (fun t => ⟨c :: t.consumed, t.rest, t.caps⟩)
          ++ [⟨[], c :: s, caps⟩]
      else
        ⟨[], c :: s, caps⟩ ::
          (starRun g (stepChar p) n s caps).map (fun t => ⟨c :: t.consumed, t.rest, t.caps⟩) := by
  simp [starRun, stepChar_cons_true h, seqThreads_cons, seqThreads_nil]

/-- A one-rune class repetition stops where the next rune is not accepted. -/
theorem starRun_stepChar_stop (g : Bool) {p : Char → Bool} {s : List Char}
    (h : ∀ c, s.head? = some c → p c = false) (n : Nat) (caps : Caps) :
    starRun g (stepChar p) n s caps = [⟨[], s, caps⟩] := by
  cases n with
  | zero => rfl
  | succ n => cases g <;> simp [starRun, stepChar_eq_nil caps h, seqThreads_nil]

/-- Every thread of a one-rune class repetition consumed a run of accepted runes
and left the submatches alone. -/
theorem starRun_stepChar_sound (g : Bool) (p : Char → Bool) :
    ∀ (n : Nat) (s : List Char) (caps : Caps) (t : Thread),
      t ∈ starRun g (stepChar p) n s caps →
        s = t.consumed ++ t.rest ∧ t.caps = caps ∧ ∀ c ∈ t.consumed, p c = true := by
  intro n
  induction n with
  | zero =>
    intro s caps t ht
    simp [starRun] at ht
    subst ht
    simp
  | succ n ih =>
    intro s caps t ht
    cases s with
    | nil =>
      rw [starRun_stepChar_stop g (by simp)] at ht
      simp at ht; subst ht; simp
    | cons c s =>
      by_cases hc : p c = true
      · rw [starRun_stepChar_cons g hc] at ht
        have key : t = ⟨[], c :: s, caps⟩ ∨
            ∃ u ∈ starRun g (stepChar p) n s caps, t = ⟨c :: u.consumed, u.rest, u.caps⟩ := by
          cases g
          · simp at ht
            rcases ht with h | ⟨u, hu, rfl⟩
            · exact Or.inl h
            · exact Or.inr ⟨u, hu, rfl⟩
          · simp at ht
            rcases ht with ⟨u, hu, rfl⟩ | h
            · exact Or.inr ⟨u, hu, rfl⟩
            · exact Or.inl h
        rcases key with rfl | ⟨u, hu, rfl⟩
        · simp
        · obtain ⟨h1, h2, h3⟩ := ih s caps u hu
          refine ⟨by simp [← h1], h2, ?_⟩
          intro d hd
          simp at hd
          rcases hd with rfl | hd
          · exact hc
          · exact h3 d hd
      · rw [starRun_stepChar_stop g (by simpa using hc)] at ht
        simp at ht; subst ht; simp

/-- A greedy one-rune class repetition prefers the whole run of accepted runes. -/
theorem starRun_greedy_head (p : Char → Bool) (caps : Caps) (s : List Char)
    (hs : ∀ c, s.head? = some c → p c = false) :
    ∀ (P : List Char) (n : Nat), P.length ≤ n → (∀ c ∈ P, p c = true) →
      (starRun true (stepChar p) n (P ++ s) caps).head? = some ⟨P, s, caps⟩ := by
  intro P
  induction P with
  | nil =>
    intro n _ _
    rw [List.nil_append, starRun_stepChar_stop true hs]
    rfl
  | cons c P ih =>
    intro n hn hP
    cases n with
    | zero => simp at hn
    | succ n =>
      have hc : p c = true := hP c (by simp)
      have h1 := ih n (by simpa using hn) (fun d hd => hP d (by simp [hd]))
      rw [List.cons_append, starRun_stepChar_cons true hc]
      simp only [if_true, List.head?_append, List.head?_map, h1]
      rfl

/-- A non-greedy one-rune class repetition followed by `k` stops at the first
position where `k` succeeds. -/
theorem seqThreads_lazy_head (p : Char → Bool) (caps : Caps) (u : List Char)
    (k : List Char → Caps → List Thread) (x : Thread) (hx : (k u caps).head? = some x) :
    ∀ (T : List Char) (n : Nat), T.length ≤ n → (∀ c ∈ T, p c = true) →
      (∀ T1 T2, T = T1 ++ T2 → T2 ≠ [] → k (T2 ++ u) caps = []) →
      (seqThreads (starRun false (stepChar p) n (T ++ u) caps) k).head? =
        some ⟨T ++ x.consumed, x.rest, x.caps⟩ := by
  intro T
  induction T with
  | nil =>
    intro n _ _ _
    cases x0 : k u caps with
    | nil => simp [x0] at hx
    | cons a l =>
      simp [x0] at hx
      subst hx
      cases n with
      | zero => simp [starRun, seqThreads_cons, x0]
      | succ n => simp [starRun, seqThreads_cons, x0]
  | cons c T ih =>
    intro n hn hT hk
    cases n with
    | zero => simp at hn
    | succ n =>
      have hc : p c = true := hT c (by simp)
      have h0 : k (c :: T ++ u) caps = [] := hk [] (c :: T) rfl (by simp)
      have h1 := ih n (by simpa using hn) (fun d hd => hT d (by simp [hd]))
        (fun T1 T2 e ne => hk (c :: T1) T2 (by simp [e]) ne)
      rw [List.cons_append, starRun_stepChar_cons false hc]
      simp only [Bool.false_eq_true, if_false, seqThreads_cons]
      rw [List.cons_append] at h0
      simp only [h0, List.map_nil, List.nil_append, seqThreads_map_cons, List.head?_map, h1]
      rfl


/-! ## The interpreter is well defined: threads split the input, and the bound on
the iterations of a repetition is never reached -/

theorem seqThreads_congr {ts : List Thread} {k1 k2 : List Char → Caps → List Thread}
    (h : ∀ t ∈ ts, k1 t.rest t.caps = k2 t.rest t.caps) : seqThreads ts k1 = seqThreads ts k2 := by
  induction ts with
  | nil => rfl
  | cons a l ih =>
    rw [seqThreads_cons, seqThreads_cons, h a (by simp),
      ih (fun t ht => h t (by simp [ht]))]

/-- Threads of a repetition split the input, when the threads of its body do. -/
theorem starRun_split (g : Bool) (step : List Char → Caps → List Thread)
    (hstep : ∀ s caps t, t ∈ step s caps → s = t.consumed ++ t.rest) :
    ∀ (n : Nat) (s : List Char) (caps : Caps) (t : Thread),
      t ∈ starRun g step n s caps → s = t.consumed ++ t.rest := by
  intro n
  induction n with
  | zero =>
    intro s caps t ht
    simp [starRun] at ht
    subst ht
    rfl
  | succ n ih =>
    intro s caps t ht
    have key : t = ⟨[], s, caps⟩ ∨
        t ∈ seqThreads ((step s caps).filter (fun t => !t.consumed.isEmpty))
          (starRun g step n) := by
      cases g
      · simpa [starRun] using ht
      · have : t ∈ seqThreads ((step s caps).filter (fun t => !t.consumed.isEmpty))
            (starRun true step n) ∨ t = ⟨[], s, caps⟩ := by
          simpa [starRun] using ht
        exact this.symm
    rcases key with rfl | hm
    · rfl
    · rw [mem_seqThreads] at hm
      obtain ⟨t1, ht1, u, hu, rfl⟩ := hm
      have h1 := hstep s caps t1 (List.mem_filter.mp ht1).1
      have h2 := ih t1.rest t1.caps u hu
      show s = (t1.consumed ++ u.consumed) ++ u.rest
      rw [List.append_assoc, ← h2, ← h1]

/-- Every thread of a pattern splits the input into the text it consumed and the
text it left. -/
theorem run_split : ∀ (r : Regex) (s : List Char) (caps : Caps) (t : Thread),
    t ∈ r.run s caps → s = t.consumed ++ t.rest := by
  intro r
  induction r with
  | emptyMatch =>
    intro s caps t ht
    simp [Regex.run] at ht
    subst ht
    rfl
  | literal l =>
    intro s caps t ht
    by_cases hl : l.isPrefixOf s = true
    · simp only [Regex.run, hl, if_true, List.mem_singleton] at ht
      subst ht
      obtain ⟨r, rfl⟩ := List.isPrefixOf_iff_prefix.mp hl
      simp
    · simp [Regex.run, hl] at ht
  | charClass negated set =>
    intro s caps t ht
    cases s with
    | nil => simp [Regex.run, stepChar] at ht
    | cons c s =>
      simp only [Regex.run, stepChar] at ht
      split at ht
      · simp at ht; subst ht; rfl
      · simp at ht
  | anyCharNotNL =>
    intro s caps t ht
    cases s with
    | nil => simp [Regex.run, stepChar] at ht
    | cons c s =>
      simp only [Regex.run, stepChar] at ht
      split at ht
      · simp at ht; subst ht; rfl
      · simp at ht
  | capture idx sub ih =>
    intro s caps t ht
    simp only [Regex.run, List.mem_map] at ht
    obtain ⟨u, hu, rfl⟩ := ht
    exact ih s caps u hu
  | star greedy sub ih =>
    intro s caps t ht
    exact starRun_split greedy sub.run ih _ s caps t ht
  | plus greedy sub ih =>
    intro s caps t ht
    simp only [Regex.run, mem_seqThreads] at ht
    obtain ⟨t1, ht1, u, hu, rfl⟩ := ht
    have h1 := ih s caps t1 ht1
    have h2 := starRun_split greedy sub.run ih _ t1.rest t1.caps u hu
    show s = (t1.consumed ++ u.consumed) ++ u.rest
    rw [List.append_assoc, ← h2, ← h1]
  | quest greedy sub ih =>
    intro s caps t ht
    have key : t = ⟨[], s, caps⟩ ∨ t ∈ sub.run s caps := by
      cases greedy
      · simpa [Regex.run] using ht
      · have : t ∈ sub.run s caps ∨ t = ⟨[], s, caps⟩ := by simpa [Regex.run] using ht
        exact this.symm
    rcases key with rfl | hm
    · rfl
    · exact ih s caps t hm
  | concat r1 r2 ih1 ih2 =>
    intro s caps t ht
    simp only [Regex.run, mem_seqThreads] at ht
    obtain ⟨t1, ht1, u, hu, rfl⟩ := ht
    have h1 := ih1 s caps t1 ht1
    have h2 := ih2 t1.rest t1.caps u hu
    show s = (t1.consumed ++ u.consumed) ++ u.rest
    rw [List.append_assoc, ← h2, ← h1]
  | alternate r1 r2 ih1 ih2 =>
    intro s caps t ht
    simp only [Regex.run, List.mem_append] at ht
    rcases ht with h | h
    · exact ih1 s caps t h
    · exact ih2 s caps t h

/-- One more iteration than the input has runes changes nothing. -/
theorem starRun_succ (g : Bool) (step : List Char → Caps → List Thread)
    (hstep : ∀ s caps t, t ∈ step s caps → s = t.consumed ++ t.rest) :
    ∀ (n : Nat) (s : List Char) (caps : Caps), s.length ≤ n →
      starRun g step (n + 1) s caps = starRun g step n s caps := by
  intro n
  induction n with
  | zero =>
    intro s caps hs
    have hnil : s = [] := List.eq_nil_of_length_eq_zero (by omega)
    subst hnil
    have hf : (step [] caps).filter (fun t => !t.consumed.isEmpty) = [] := by
      rw [List.filter_eq_nil_iff]
      intro t ht
      have := hstep [] caps t ht
      have hc : t.consumed = [] := (List.append_eq_nil.mp this.symm).1
      simp [hc]
    cases g <;> simp [starRun, hf, seqThreads_nil]
  | succ n ih =>
    intro s caps hs
    have hk : seqThreads ((step s caps).filter (fun t => !t.consumed.isEmpty))
          (starRun g step (n + 1))
        = seqThreads ((step s caps).filter (fun t => !t.consumed.isEmpty))
          (starRun g step n) := by
      apply seqThreads_congr
      intro t ht
      obtain ⟨hmem, hne⟩ := List.mem_filter.mp ht
      have hsplit := hstep s caps t hmem
      have hlen := congrArg List.length hsplit
      simp only [List.length_append] at hlen
      have hpos : 0 < t.consumed.length := by
        cases hc : t.consumed with
        | nil => simp [hc] at hne
        | cons a l => simp
      exact ih t.rest t.caps (by omega)
    rw [starRun, hk]
    rfl

/-- The bound on the iterations of a repetition is never reached: any bound from
the length of the input on gives the same threads. -/
theorem starRun_bound (g : Bool) (step : List Char → Caps → List Thread)
    (hstep : ∀ s caps t, t ∈ step s caps → s = t.consumed ++ t.rest)
    (s : List Char) (caps : Caps) :
    ∀ (k : Nat), starRun g step (s.length + k) s caps = starRun g step s.length s caps := by
  intro k
  induction k with
  | zero => rfl
  | succ k ih =>
    rw [← Nat.add_assoc, starRun_succ g step hstep (s.length + k) s caps (by omega), ih]

/-- The threads of `r*` do not depend on the bound `Regex.run` gives the repetition. -/
theorem run_star_bound (g : Bool) (r : Regex) (s : List Char) (caps : Caps) (k : Nat) :
    starRun g r.run (s.length + k) s caps = (Regex.star g r).run s caps := by
  rw [starRun_bound g r.run (run_split r) s caps k]
  rfl

/-! ## Lemmas on the occurrences of a word in a text -/

/-- A word that starts in a non-empty `X` and is a prefix of `X ++ y :: Y` lies
within `X`, when `y` occurs in the word at its head only, or not at all. -/
theorem isPrefix_of_append_cons {y : Char} :
    ∀ (X : List Char) (pat Y : List Char), y ∉ pat.tail → X ≠ [] →
      pat <+: X ++ y :: Y → pat <+: X := by
  intro X
  induction X with
  | nil => intro pat Y _ hX; exact absurd rfl hX
  | cons x X ih =>
    intro pat Y hy _ h
    cases pat with
    | nil => exact List.nil_prefix
    | cons p ps =>
      rw [List.cons_append, List.cons_prefix_cons] at h
      obtain ⟨hpx, hps⟩ := h
      rw [List.cons_prefix_cons]
      refine ⟨hpx, ?_⟩
      by_cases hX : X = []
      · subst hX
        cases ps with
        | nil => exact List.nil_prefix
        | cons q qs =>
          rw [List.nil_append, List.cons_prefix_cons] at hps
          exact absurd (by simp [hps.1]) hy
      · exact ih ps Y (fun hmem => hy (List.mem_of_mem_tail hmem)) hX hps

/-- An occurrence of a word in `X ++ y :: Y` lies in `X` or in `y :: Y`, when `y`
occurs in the word at its head only, or not at all. -/
theorem isInfix_append_cons {y : Char} {pat : List Char} (hy : y ∉ pat.tail) :
    ∀ (X Y : List Char), pat <:+: X ++ y :: Y → pat <:+: X ∨ pat <:+: y :: Y := by
  intro X
  induction X with
  | nil => intro Y h; exact Or.inr (by simpa using h)
  | cons x X ih =>
    intro Y h
    rw [List.cons_append, List.infix_cons_iff] at h
    rcases h with h | h
    · have h1 : pat <+: x :: X :=
        isPrefix_of_append_cons (x :: X) pat Y hy (by simp) (by simpa using h)
      exact Or.inl h1.isInfix
    · rcases ih Y h with h1 | h1
      · exact Or.inl (List.infix_cons h1)
      · exact Or.inr h1

/-- An occurrence of a word in `X ++ y :: Y` lies in `X` or in `Y`, when `y` does
not occur in the word. -/
theorem isInfix_append_cons_of_not_mem {y : Char} {pat : List Char} (hy : y ∉ pat)
    (hne : pat ≠ []) (X Y : List Char) (h : pat <:+: X ++ y :: Y) :
    pat <:+: X ∨ pat <:+: Y := by
  rcases isInfix_append_cons (fun hmem => hy (List.mem_of_mem_tail hmem)) X Y h with h1 | h1
  · exact Or.inl h1
  · rw [List.infix_cons_iff] at h1
    rcases h1 with h2 | h2
    · cases pat with
      | nil => exact absurd rfl hne
      | cons p ps =>
        rw [List.cons_prefix_cons] at h2
        exact absurd (by simp [h2.1]) hy
    · exact Or.inr h2

/-- An occurrence of a word in `X ++ Y` lies in `Y`, when the head of the word
does not occur in `X`. -/
theorem isInfix_of_head_not_mem {p : Char} {ps : List Char} :
    ∀ (X Y : List Char), p ∉ X → (p :: ps) <:+: X ++ Y → (p :: ps) <:+: Y := by
  intro X
  induction X with
  | nil => intro Y _ h; simpa using h
  | cons x X ih =>
    intro Y hp h
    rw [List.cons_append, List.infix_cons_iff] at h
    rcases h with h | h
    · rw [List.cons_prefix_cons] at h
      exact absurd (by simp [h.1]) hp
    · exact ih Y (fun hmem => hp (by simp [hmem])) h

/-- An occurrence of a word in `X ++ [y]` lies in `X`, when the word does not end
in `y`. -/
theorem isInfix_concat_of_getLast {y : Char} {pat X : List Char}
    (hy : pat.getLast? ≠ some y) (hne : pat ≠ []) (h : pat <:+: X ++ [y]) : pat <:+: X := by
  rw [List.infix_concat_iff] at h
  rcases h with h | h
  · rw [List.suffix_concat_iff] at h
    rcases h with h | ⟨t, rfl, _⟩
    · exact absurd h hne
    · exact absurd (by simp) hy
  · exact h

/-- The first occurrence of a word in a text that contains it. -/
theorem exists_first_occurrence (pat : List Char) (hne : pat ≠ []) :
    ∀ (L : List Char), pat <:+: L →
      ∃ A B, L = A ++ pat ++ B ∧
        ∀ A1 A2, A = A1 ++ A2 → A2 ≠ [] → ¬ pat <+: A2 ++ pat ++ B := by
  intro L
  induction L with
  | nil =>
    intro h
    exact absurd (List.eq_nil_of_infix_nil h) hne
  | cons c L ih =>
    intro h
    by_cases hp : pat <+: c :: L
    · obtain ⟨B, hB⟩ := hp
      refine ⟨[], B, by simp [hB], ?_⟩
      intro A1 A2 e ne
      simp at e
      exact absurd e.2 ne
    · rw [List.infix_cons_iff] at h
      rcases h with h | h
      · exact absurd h hp
      · obtain ⟨A, B, e, hA⟩ := ih h
        refine ⟨c :: A, B, by simp [e], ?_⟩
        intro A1 A2 e2 ne
        cases A1 with
        | nil =>
          simp at e2
          subst e2
          intro hc
          apply hp
          simpa [e] using hc
        | cons a A1 =>
          simp at e2
          exact hA A1 A2 e2.2 ne


/-! ## Lemmas on the link pattern -/

theorem run_concat_head {r1 r2 : Regex} {s : List Char} {caps : Caps} {t u : Thread}
    (h1 : (r1.run s caps).head? = some t) (h2 : (r2.run t.rest t.caps).head? = some u) :
    ((Regex.concat r1 r2).run s caps).head? = some ⟨t.consumed ++ u.consumed, u.rest, u.caps⟩ := by
  simp only [Regex.run]
  exact seqThreads_head h1 h2

theorem run_capture_head {r : Regex} {s : List Char} {caps : Caps} {t : Thread} (idx : Nat)
    (h : (r.run s caps).head? = some t) :
    ((Regex.capture idx r).run s caps).head? =
      some ⟨t.consumed, t.rest, t.caps.set idx (some t.consumed)⟩ := by
  simp only [Regex.run, List.head?_map, h]
  rfl

theorem run_charClass (negated : Bool) (set : List Char) :
    (Regex.charClass negated set).run = stepChar (fun c => set.contains c != negated) := by
  funext s caps
  simp [Regex.run]

theorem run_anyCharNotNL : Regex.anyCharNotNL.run = stepChar (fun c => c != '\n') := by
  funext s caps
  simp [Regex.run]

/-- The path group takes the whole run of path runes in front of a `#` or a `"`. -/
theorem linkPath_head (P s : List Char) (caps : Caps) (hP : P ≠ [])
    (hPc : ∀ c ∈ P, c ≠ '?' ∧ c ≠ '#' ∧ c ≠ '"')
    (hs : ∀ c, s.head? = some c → c = '?' ∨ c = '#' ∨ c = '"') :
    (linkPath.run (P ++ s) caps).head? = some ⟨P, s, caps.set 2 (some P)⟩ := by
  have hcls : ∀ c ∈ P, (fun c => ['?', '#', '"'].contains c != true) c = true := by
    intro c hc
    obtain ⟨h1, h2, h3⟩ := hPc c hc
    simp [h1, h2, h3]
  have hstop : ∀ c, s.head? = some c → (fun c => ['?', '#', '"'].contains c != true) c = false := by
    intro c hc
    rcases hs c hc with rfl | rfl | rfl <;> simp
  cases P with
  | nil => exact absurd rfl hP
  | cons a P =>
    have h1 : ((Regex.plus true (Regex.charClass true ['?', '#', '"'])).run (a :: P ++ s) caps).head?
        = some ⟨a :: P, s, caps⟩ := by
      simp only [Regex.run]
      have ha := hcls a (by simp)
      have hrun := starRun_greedy_head _ caps s hstop P (P ++ s).length (by simp)
        (fun c hc => hcls c (by simp [hc]))
      have := @seqThreads_head
        (stepChar (fun c => ['?', '#', '"'].contains c != true) (a :: P ++ s) caps)
        (fun s1 caps1 =>
          starRun true (stepChar (fun c => ['?', '#', '"'].contains c != true)) s1.length s1 caps1)
        ⟨[a], P ++ s, caps⟩ ⟨P, s, caps⟩
        (by rw [List.cons_append, stepChar_cons_true ha]; rfl) hrun
      simpa [run_charClass] using this
    have h2 := run_capture_head 2 h1
    simpa [linkPath] using h2

/-- The optional fragment takes nothing in front of a `"`, and a whole `#...` in
front of a `"`. -/
theorem linkFragment_head (F s : List Char) (caps : Caps)
    (hF : F = [] ∨ ∃ G, F = '#' :: G ∧ '"' ∉ G) :
    (linkFragment.run (F ++ '"' :: s) caps).head? = some ⟨F, '"' :: s, caps⟩ := by
  rcases hF with rfl | ⟨G, rfl, hG⟩
  · have h : (Regex.literal ['#']).run ('"' :: s) caps = [] :=
      run_literal_eq_nil_of_head (a := '#') caps rfl (by simp)
    simp [linkFragment, Regex.run, seqThreads_nil] at h ⊢
  · have h1 : ((Regex.literal ['#']).run ('#' :: (G ++ '"' :: s)) caps).head?
        = some ⟨['#'], G ++ '"' :: s, caps⟩ := by
      rw [show '#' :: (G ++ '"' :: s) = ['#'] ++ (G ++ '"' :: s) from rfl, run_literal_append]
      rfl
    have h2 : ((Regex.star true (Regex.charClass true ['"'])).run (G ++ '"' :: s) caps).head?
        = some ⟨G, '"' :: s, caps⟩ := by
      simp only [Regex.run, run_charClass]
      apply starRun_greedy_head _ caps ('"' :: s) _ G _ (by simp)
      · intro c hc
        have : c ≠ '"' := fun e => hG (e ▸ hc)
        simp [this]
      · intro c hc
        simp at hc
        subst hc
        simp
    have h3 := run_concat_head h1 h2
    simp only [linkFragment, Regex.run, List.cons_append, List.head?_append] at h3 ⊢
    simp only [Bool.true_eq, if_true, List.head?_append]
    rw [h3]
    rfl


theorem matchAt_of_head {re : Regex} {s : List Char} {t : Thread}
    (h : (re.run s (List.replicate (re.numSubexp + 1) none)).head? = some t) :
    re.matchAt s = some ⟨t.consumed, t.rest, t.caps.set 0 (some t.consumed)⟩ := by
  unfold Regex.matchAt
  cases hr : re.run s (List.replicate (re.numSubexp + 1) none) with
  | nil => rw [hr] at h; simp at h
  | cons a l =>
    rw [hr] at h
    simp only [List.head?_cons, Option.some.injEq] at h
    subst h
    rfl

theorem matchAt_eq_none {re : Regex} {s : List Char}
    (h : re.run s (List.replicate (re.numSubexp + 1) none) = []) : re.matchAt s = none := by
  unfold Regex.matchAt
  rw [h]

/-- The link text: `.*?</a>` stops at the first `</a>`, when no newline stands
before it. -/
theorem linkText_head (T rest : List Char) (caps : Caps) (hT : '\n' ∉ T)
    (hfirst : ∀ T1 T2, T = T1 ++ T2 → T2 ≠ [] →
      ¬ "</a>".toList <+: T2 ++ ("</a>".toList ++ rest)) :
    ((Regex.concat (Regex.star false Regex.anyCharNotNL) (Regex.literal "</a>".toList)).run
        (T ++ ("</a>".toList ++ rest)) caps).head?
      = some ⟨T ++ "</a>".toList, rest, caps⟩ := by
  simp only [Regex.run, run_anyCharNotNL]
  have hx : ((Regex.literal "</a>".toList).run ("</a>".toList ++ rest) caps).head?
      = some ⟨"</a>".toList, rest, caps⟩ := by
    rw [run_literal_append]; rfl
  exact seqThreads_lazy_head (fun c => c != '\n') caps ("</a>".toList ++ rest)
    (Regex.literal "</a>".toList).run ⟨"</a>".toList, rest, caps⟩ hx T _ (by simp)
    (fun c hc => by
      have : c ≠ '\n' := fun e => hT (e ▸ hc)
      simp [this])
    (fun T1 T2 e ne => run_literal_of_mismatch caps (hfirst T1 T2 e ne))

/-- The third group on a well-formed rest of an anchor. -/
theorem linkTail_head (F T rest : List Char) (caps : Caps)
    (hF : F = [] ∨ ∃ G, F = '#' :: G ∧ '"' ∉ G) (hT : '\n' ∉ T)
    (hfirst : ∀ T1 T2, T = T1 ++ T2 → T2 ≠ [] →
      ¬ "</a>".toList <+: T2 ++ ("</a>".toList ++ rest)) :
    (linkTail.run (F ++ ("\">".toList ++ (T ++ ("</a>".toList ++ rest)))) caps).head?
      = some ⟨F ++ ("\">".toList ++ (T ++ "</a>".toList)), rest,
          caps.set 3 (some (F ++ ("\">".toList ++ (T ++ "</a>".toList))))⟩ := by
  have h1 := linkFragment_head F ('>' :: (T ++ ("</a>".toList ++ rest))) caps hF
  have h2 : ((Regex.literal "\">".toList).run ('"' :: '>' :: (T ++ ("</a>".toList ++ rest)))
      caps).head? = some ⟨"\">".toList, T ++ ("</a>".toList ++ rest), caps⟩ := by
    rw [show '"' :: '>' :: (T ++ ("</a>".toList ++ rest))
      = "\">".toList ++ (T ++ ("</a>".toList ++ rest)) from rfl, run_literal_append]
    rfl
  have h3 := linkText_head T rest caps hT hfirst
  have h4 := run_concat_head h1 (run_concat_head h2 h3)
  have h5 := run_capture_head 3 h4
  exact h5

/-- The link pattern matches a well-formed anchor at the head of the input, whatever
follows: the match is the anchor up to its first `</a>`, group 1 is `<a href="/`,
group 2 the path and group 3 the rest of the anchor. -/
theorem matchAt_anchor (P F T rest : List Char) (hP : P ≠ [])
    (hPc : ∀ c ∈ P, c ≠ '?' ∧ c ≠ '#' ∧ c ≠ '"')
    (hF : F = [] ∨ ∃ G, F = '#' :: G ∧ '"' ∉ G) (hT : '\n' ∉ T)
    (hfirst : ∀ T1 T2, T = T1 ++ T2 → T2 ≠ [] →
      ¬ "</a>".toList <+: T2 ++ ("</a>".toList ++ rest)) :
    packageLinkRegexp.matchAt
        ("<a href=\"/".toList ++ ("pkg/".toList ++ (P ++ (F ++ ("\">".toList ++
          (T ++ ("</a>".toList ++ rest)))))))
      = some ⟨"<a href=\"/".toList ++ ("pkg/".toList ++ (P ++ (F ++ ("\">".toList ++
          (T ++ "</a>".toList))))), rest,
          [some ("<a href=\"/".toList ++ ("pkg/".toList ++ (P ++ (F ++ ("\">".toList ++
            (T ++ "</a>".toList)))))),
           some "<a href=\"/".toList, some P,
           some (F ++ ("\">".toList ++ (T ++ "</a>".toList)))]⟩ := by
  have hn : packageLinkRegexp.numSubexp = 3 := by decide
  have h1 : ((Regex.capture 1 (Regex.literal "<a href=\"/".toList)).run
      ("<a href=\"/".toList ++ ("pkg/".toList ++ (P ++ (F ++ ("\">".toList ++
          (T ++ ("</a>".toList ++ rest)))))))
      [none, none, none, none]).head?
      = some ⟨"<a href=\"/".toList,
          "pkg/".toList ++ (P ++ (F ++ ("\">".toList ++ (T ++ ("</a>".toList ++ rest))))),
          [none, some "<a href=\"/".toList, none, none]⟩ := by
    simp only [Regex.run, run_literal_append]
    rfl
  have h2 : ((Regex.literal "pkg/".toList).run
      ("pkg/".toList ++ (P ++ (F ++ ("\">".toList ++ (T ++ ("</a>".toList ++ rest))))))
      [none, some "<a href=\"/".toList, none, none]).head?
      = some ⟨"pkg/".toList, P ++ (F ++ ("\">".toList ++ (T ++ ("</a>".toList ++ rest)))),
          [none, some "<a href=\"/".toList, none, none]⟩ := by
    rw [run_literal_append]; rfl
  have h3 := linkPath_head P (F ++ ("\">".toList ++ (T ++ ("</a>".toList ++ rest))))
    [none, some "<a href=\"/".toList, none, none] hP hPc (by
      rcases hF with rfl | ⟨G, rfl, _⟩
      · intro c hc
        simp at hc
        exact Or.inr (Or.inr hc.symm)
      · intro c hc
        simp at hc
        exact Or.inr (Or.inl hc.symm))
  have h4 := linkTail_head F T rest
    ([none, some "<a href=\"/".toList, none, none].set 2 (some P)) hF hT hfirst
  have h5 := run_concat_head h1 (run_concat_head h2 (run_concat_head h3 h4))
  have h6 := @matchAt_of_head packageLinkRegexp _ _ (by rw [hn]; exact h5)
  rw [h6]
  simp

/-- The link pattern does not match where the input does not start with
`<a href="/pkg/`. -/
theorem matchAt_eq_none_of_no_opener {s : List Char}
    (h : ¬ "<a href=\"/pkg/".toList <+: s) : packageLinkRegexp.matchAt s = none := by
  apply matchAt_eq_none
  simp only [packageLinkRegexp, Regex.run]
  by_cases h1 : "<a href=\"/".toList <+: s
  · obtain ⟨s1, rfl⟩ := h1
    have h2 : ¬ "pkg/".toList <+: s1 := by
      rintro ⟨s2, rfl⟩
      exact h ⟨s2, by simp⟩
    have h3 : "<a href=\"/".toList.isPrefixOf ("<a href=\"/".toList ++ s1) = true := by
      rw [List.isPrefixOf_iff_prefix]; exact List.prefix_append _ _
    have h4 : "pkg/".toList.isPrefixOf s1 = false := by
      rw [← Bool.not_eq_true, List.isPrefixOf_iff_prefix]; exact h2
    rw [if_pos h3]
    simp only [List.map_cons, List.map_nil, seqThreads_cons, seqThreads_nil, List.append_nil,
      List.drop_left, List.map_eq_nil_iff]
    rw [if_neg (by rw [h4]; exact Bool.false_ne_true)]
    rfl
  · have h3 : "<a href=\"/".toList.isPrefixOf s = false := by
      rw [← Bool.not_eq_true, List.isPrefixOf_iff_prefix]; exact h1
    rw [if_neg (by rw [h3]; exact Bool.false_ne_true)]
    rfl

/-- Every thread of the path group consumed a non-empty run of path runes. -/
theorem linkPath_sound {s : List Char} {caps : Caps} {t : Thread}
    (h : t ∈ linkPath.run s caps) :
    s = t.consumed ++ t.rest ∧ t.consumed ≠ [] ∧
      (∀ c ∈ t.consumed, c ≠ '?' ∧ c ≠ '#' ∧ c ≠ '"') ∧
      t.caps = caps.set 2 (some t.consumed) := by
  simp only [linkPath, Regex.run, run_charClass, List.mem_map, mem_seqThreads] at h
  obtain ⟨x, ⟨t1, ht1, u, hu, rfl⟩, rfl⟩ := h
  have hcls : ∀ c : Char, (['?', '#', '"'].contains c != true) = true →
      c ≠ '?' ∧ c ≠ '#' ∧ c ≠ '"' := by
    intro c hc
    simp at hc
    exact ⟨hc.1, hc.2.1, hc.2.2⟩
  cases s with
  | nil => simp [stepChar] at ht1
  | cons a s =>
    by_cases ha : (['?', '#', '"'].contains a != true) = true
    · rw [stepChar_cons_true (p := fun c => ['?', '#', '"'].contains c != true) ha] at ht1
      simp at ht1
      subst ht1
      obtain ⟨h1, h2, h3⟩ := starRun_stepChar_sound true _ _ _ _ _ hu
      refine ⟨by simp [← h1], by simp, ?_, by simp [h2]⟩
      intro c hc
      simp at hc
      rcases hc with rfl | hc
      · exact hcls _ ha
      · exact hcls _ (h3 c hc)
    · rw [stepChar_eq_nil (p := fun c => ['?', '#', '"'].contains c != true) caps
        (by intro c hc; simp at hc; subst hc; simpa using ha)] at ht1
      simp at ht1

/-- The third group does not match where the input starts with neither `#` nor `"`. -/
theorem linkTail_eq_nil {s : List Char} (caps : Caps) (h1 : s.head? ≠ some '#')
    (h2 : s.head? ≠ some '"') : linkTail.run s caps = [] := by
  have e1 : (Regex.literal ['#']).run s caps = [] :=
    run_literal_eq_nil_of_head (a := '#') caps rfl h1
  have e2 : (Regex.literal "\">".toList).run s caps = [] :=
    run_literal_eq_nil_of_head (a := '"') caps rfl h2
  simp only [linkTail, linkFragment, Regex.run] at e1 e2 ⊢
  simp only [if_true]
  rw [e1]
  simp only [seqThreads_nil, List.nil_append, seqThreads_cons, List.map_nil, List.map_eq_nil_iff,
    List.append_nil]
  rw [e2]
  rfl

theorem append_eq_append_cons_of_not_mem {A R P X : List Char} {y : Char}
    (h : A ++ R = P ++ y :: X) (hy : y ∉ A) : ∃ P2, P = A ++ P2 ∧ R = P2 ++ y :: X := by
  rw [List.append_eq_append_iff] at h
  rcases h with ⟨a, rfl, rfl⟩ | ⟨c, rfl, hc⟩
  · exact ⟨a, rfl, rfl⟩
  · cases c with
    | nil => exact ⟨[], by simp, by simpa using hc.symm⟩
    | cons b c =>
      simp at hc
      exact absurd (by simp [hc.1]) hy

/-- The link pattern does not match an anchor whose path is followed by `?`. -/
theorem matchAt_query_eq_none (P X : List Char)
    (hPc : ∀ c ∈ P, c ≠ '?' ∧ c ≠ '#' ∧ c ≠ '"') :
    packageLinkRegexp.matchAt ("<a href=\"/".toList ++ ("pkg/".toList ++ (P ++ '?' :: X)))
      = none := by
  apply matchAt_eq_none
  have key : ∀ caps, seqThreads (linkPath.run (P ++ '?' :: X) caps) linkTail.run = [] := by
    intro caps
    apply seqThreads_eq_nil
    intro t ht
    obtain ⟨h1, -, h3, -⟩ := linkPath_sound ht
    obtain ⟨P2, hP2, hR⟩ := append_eq_append_cons_of_not_mem h1.symm
      (fun hmem => (h3 _ hmem).1 rfl)
    have hhead : ∀ c, t.rest.head? = some c → c ≠ '#' ∧ c ≠ '"' := by
      intro c hc
      rw [hR] at hc
      cases P2 with
      | nil =>
        simp at hc
        subst hc
        exact ⟨by decide, by decide⟩
      | cons b P2 =>
        simp at hc
        subst hc
        have := hPc b (by simp [hP2])
        exact ⟨this.2.1, this.2.2⟩
    exact linkTail_eq_nil _ (fun e => (hhead _ e).1 rfl) (fun e => (hhead _ e).2 rfl)
  simp only [packageLinkRegexp]
  rw [Regex.run, Regex.run, run_literal_append]
  simp only [List.map_cons, List.map_nil, seqThreads_cons, seqThreads_nil, List.append_nil,
    List.map_eq_nil_iff]
  rw [Regex.run, run_literal_append]
  simp only [seqThreads_cons, seqThreads_nil, List.append_nil, List.map_eq_nil_iff]
  rw [Regex.run]
  exact key _

/-! ## Lemmas on `ReplaceAll` -/

theorem matchAt_nil : packageLinkRegexp.matchAt [] = none := by decide

/-- The runes of a match are skipped. -/
theorem replaceAllAux_skip (re : Regex) (template : List Char) (b : Bool) (s : List Char) :
    ∀ (X : List Char), replaceAllAux re template X.length b (X ++ s)
      = replaceAllAux re template 0 b s := by
  intro X
  induction X with
  | nil => rfl
  | cons x X ih =>
    rw [List.length_cons, List.cons_append, replaceAllAux]
    exact ih

/-- Where the pattern does not match, one rune is copied. -/
theorem replaceAllAux_of_none {re : Regex} (template : List Char) (b : Bool) {c : Char}
    {t : List Char} (h : re.matchAt (c :: t) = none) :
    replaceAllAux re template 0 b (c :: t) = c :: replaceAllAux re template 0 false t := by
  rw [replaceAllAux, h]

/-- Where the pattern matches a non-empty `M`, the expanded template replaces `M`. -/
theorem replaceAllAux_of_match {re : Regex} (template : List Char) (b : Bool)
    {M rest rest1 : List Char} {caps : Caps} (hM : M ≠ [])
    (h : re.matchAt (M ++ rest) = some ⟨M, rest1, caps⟩) :
    replaceAllAux re template 0 b (M ++ rest)
      = expand template caps ++ replaceAllAux re template 0 true rest := by
  cases M with
  | nil => exact absurd rfl hM
  | cons c M =>
    rw [List.cons_append] at h ⊢
    rw [replaceAllAux, h]
    simp only [List.isEmpty_cons, Bool.false_eq_true, if_false, List.length_cons,
      Nat.add_sub_cancel]
    rw [replaceAllAux_skip]

/-- The template `$1$2?tab=doc$3` on the submatches of the link pattern. -/
theorem expand_docTemplate (g0 : Option (List Char)) (g1 g2 g3 : List Char) :
    expand "$1$2?tab=doc$3".toList [g0, some g1, some g2, some g3]
      = g1 ++ (g2 ++ ("?tab=doc".toList ++ g3)) := by
  have h : scanTemplate .inText "$1$2?tab=doc$3".toList
      = [.ref ['1'], .ref ['2'], .text ['?'], .text ['t'], .text ['a'], .text ['b'],
         .text ['='], .text ['d'], .text ['o'], .text ['c'], .ref ['3']] := by decide
  have h1 : groupIndex ['1'] = some 1 := by decide
  have h2 : groupIndex ['2'] = some 2 := by decide
  have h3 : groupIndex ['3'] = some 3 := by decide
  unfold expand
  rw [h]
  simp [expandPart, h1, h2, h3]

/-- Text without `<a href="/pkg/` is copied as it is. -/
theorem replaceAllAux_of_no_opener :
    ∀ (s : List Char), ¬ "<a href=\"/pkg/".toList <:+: s → ∀ (b : Bool),
      replaceAllAux packageLinkRegexp "$1$2?tab=doc$3".toList 0 b s = s := by
  intro s
  induction s with
  | nil =>
    intro _ b
    rw [replaceAllAux, matchAt_nil]
  | cons c t ih =>
    intro h b
    rw [replaceAllAux_of_none _ _ (matchAt_eq_none_of_no_opener (fun hp => h hp.isInfix)),
      ih (fun hi => h (List.infix_cons hi))]

/-- Runes other than `<` in front of the input are copied. -/
theorem replaceAllAux_of_no_lt :
    ∀ (pre : List Char), '<' ∉ pre → ∀ (b : Bool) (s : List Char), ∃ b1,
      replaceAllAux packageLinkRegexp "$1$2?tab=doc$3".toList 0 b (pre ++ s)
        = pre ++ replaceAllAux packageLinkRegexp "$1$2?tab=doc$3".toList 0 b1 s := by
  intro pre
  induction pre with
  | nil => intro _ b s; exact ⟨b, rfl⟩
  | cons c t ih =>
    intro h b s
    have hc : c ≠ '<' := fun e => h (by simp [e])
    obtain ⟨b1, hb1⟩ := ih (fun hm => h (by simp [hm])) false s
    refine ⟨b1, ?_⟩
    rw [List.cons_append, replaceAllAux_of_none _ _ (matchAt_eq_none_of_no_opener (by
      rintro ⟨r, hr⟩
      simp at hr
      exact hc hr.1.symm)), hb1]
    rfl

/-- A well-formed anchor at the head of the input is rewritten, and the rewrite
goes on behind it. -/
theorem replaceAllAux_anchor (P F T rest : List Char) (b : Bool) (hP : P ≠ [])
    (hPc : ∀ c ∈ P, c ≠ '?' ∧ c ≠ '#' ∧ c ≠ '"')
    (hF : F = [] ∨ ∃ G, F = '#' :: G ∧ '"' ∉ G) (hT : '\n' ∉ T)
    (hfirst : ∀ T1 T2, T = T1 ++ T2 → T2 ≠ [] →
      ¬ "</a>".toList <+: T2 ++ ("</a>".toList ++ rest)) :
    replaceAllAux packageLinkRegexp "$1$2?tab=doc$3".toList 0 b
        ("<a href=\"/pkg/".toList ++ (P ++ (F ++ ("\">".toList ++ (T ++ ("</a>".toList ++ rest))))))
      = "<a href=\"/".toList ++ (P ++ ("?tab=doc".toList ++ (F ++ ("\">".toList ++
          (T ++ "</a>".toList)))))
        ++ replaceAllAux packageLinkRegexp "$1$2?tab=doc$3".toList 0 true rest := by
  have h := matchAt_anchor P F T rest hP hPc hF hT hfirst
  have e : "<a href=\"/pkg/".toList ++ (P ++ (F ++ ("\">".toList ++ (T ++ ("</a>".toList ++ rest)))))
      = ("<a href=\"/".toList ++ ("pkg/".toList ++ (P ++ (F ++ ("\">".toList ++
          (T ++ "</a>".toList)))))) ++ rest := by
    simp
  rw [e, replaceAllAux_of_match _ b (by simp) (by rw [← e]; exact h), expand_docTemplate]

/-- The closing tag does not occur across the end of a text that does not contain it. -/
theorem first_close_of_absent {T : List Char} (h : ¬ "</a>".toList <:+: T)
    (rest : List Char) :
    ∀ T1 T2, T = T1 ++ T2 → T2 ≠ [] → ¬ "</a>".toList <+: T2 ++ ("</a>".toList ++ rest) := by
  intro T1 T2 e ne hp
  have h1 : "</a>".toList <+: T2 :=
    isPrefix_of_append_cons T2 "</a>".toList ("/a>".toList ++ rest) (by decide) ne hp
  apply h
  rw [e]
  exact h1.isInfix.trans (List.suffix_append T1 T2).isInfix

/-! ## Lemmas on `hackUpDocumentation` -/

theorem replaceAllAux_nil (n : Nat) (b : Bool) :
    replaceAllAux packageLinkRegexp "$1$2?tab=doc$3".toList n b [] = [] := by
  rw [replaceAllAux, matchAt_nil]

/-- The pattern `<a href="/pkg/` does not occur in a text without `<`. -/
theorem no_opener_of_no_lt {s : List Char} (h : '<' ∉ s) :
    ¬ "<a href=\"/pkg/".toList <:+: s :=
  fun hi => h (hi.subset (by decide))

/-- The pattern `<a href="/pkg/` does not occur across the end of a text in front
of `</a>`. -/
theorem no_opener_append_close {T : List Char} (h : ¬ "<a href=\"/pkg/".toList <:+: T) :
    ¬ "<a href=\"/pkg/".toList <:+: T ++ "</a>".toList := by
  intro hi
  rcases @isInfix_append_cons '<' "<a href=\"/pkg/".toList (by decide) T
    "/a>".toList hi with h1 | h1
  · exact h h1
  · have := h1.length_le
    simp at this

/-- The rewrite of a sequence of well-formed anchors and texts without `<`, from
any state of the replacement loop. -/
theorem replaceAllAux_interleave :
    ∀ (items : List (Anchor × List Char)) (sep0 : List Char) (b : Bool), '<' ∉ sep0 →
      (∀ x ∈ items, x.1.WellFormed ∧ '<' ∉ x.2) →
      replaceAllAux packageLinkRegexp "$1$2?tab=doc$3".toList 0 b
          (interleave Anchor.source sep0 items)
        = interleave Anchor.rewritten sep0 items := by
  intro items
  induction items with
  | nil =>
    intro sep0 b h0 _
    exact replaceAllAux_of_no_opener sep0 (no_opener_of_no_lt h0) b
  | cons x items ih =>
    intro sep0 b h0 hall
    obtain ⟨a, sep⟩ := x
    obtain ⟨⟨hP, hPc, hF, hT, hclose⟩, hsep⟩ := hall (a, sep) (by simp)
    have hrest := ih sep true hsep (fun y hy => hall y (by simp [hy]))
    obtain ⟨b1, hb1⟩ := replaceAllAux_of_no_lt sep0 h0 b
      (Anchor.source a ++ interleave Anchor.source sep items)
    have e : Anchor.source a ++ interleave Anchor.source sep items
        = "<a href=\"/pkg/".toList ++ (a.path ++ (a.fragment ++ ("\">".toList ++
            (a.text ++ ("</a>".toList ++ interleave Anchor.source sep items))))) := by
      simp [Anchor.source]
    have h2 := replaceAllAux_anchor a.path a.fragment a.text
      (interleave Anchor.source sep items) b1 hP hPc hF hT
      (first_close_of_absent hclose _)
    simp only [interleave, List.append_assoc]
    rw [hb1, e, h2, hrest]
    simp [Anchor.rewritten]

/-! ## The claims -/

/-- C1: `hackUpDocumentation` rewrites a single well-formed internal link: for a
non-empty path `P` without `?`, `#` and `"`, a fragment part `F` that is empty or
`#` followed by runes other than `"`, and a link text `T` without newline and
without `</a>`, the anchor `<a href="/pkg/PF">T</a>` becomes
`<a href="/P?tab=docF">T</a>`. -/
theorem hackUpDocumentation_single_link (P F T : List Char) (hP : P ≠ [])
    (hPc : ∀ c ∈ P, c ≠ '?' ∧ c ≠ '#' ∧ c ≠ '"')
    (hF : F = [] ∨ ∃ G, F = '#' :: G ∧ '"' ∉ G)
    (hT : '\n' ∉ T) (hclose : ¬ "</a>".toList <:+: T) :
    hackUpDocumentation
        ("<a href=\"/pkg/".toList ++ P ++ F ++ "\">".toList ++ T ++ "</a>".toList)
      = "<a href=\"/".toList ++ P ++ "?tab=doc".toList ++ F ++ "\">".toList ++ T
          ++ "</a>".toList := by
  have h := replaceAllAux_anchor P F T [] false hP hPc hF hT (first_close_of_absent hclose _)
  rw [replaceAllAux_nil] at h
  unfold hackUpDocumentation Regex.ReplaceAll
  simpa using h

/-- The example of C1: `<a href="/pkg/foo/bar#Baz">foo/bar</a>` becomes
`<a href="/foo/bar?tab=doc#Baz">foo/bar</a>`. -/
theorem hackUpDocumentation_single_link_witness :
    hackUpDocumentation
        ("<a href=\"/pkg/".toList ++ "foo/bar".toList ++ "#Baz".toList ++ "\">".toList
          ++ "foo/bar".toList ++ "</a>".toList)
      = "<a href=\"/".toList ++ "foo/bar".toList ++ "?tab=doc".toList ++ "#Baz".toList
          ++ "\">".toList ++ "foo/bar".toList ++ "</a>".toList :=
  hackUpDocumentation_single_link "foo/bar".toList "#Baz".toList "foo/bar".toList
    (by decide) (by decide) (Or.inr ⟨"Baz".toList, rfl, by decide⟩) (by decide) (by decide)

/-- C2: with the rewrite toggle disabled, the `Documentation` field returned by
`fetchDocumentationDetails` is the `DocumentationHTML` of the package record,
whatever it holds. -/
theorem fetchDocumentationDetails_toggle_off (pkg : VersionedPackage) :
    (fetchDocumentationDetails false pkg).1.Documentation = pkg.DocumentationHTML := by
  simp [fetchDocumentationDetails]

/-- C3: for a module other than the standard library, `fileSource` returns
`modulePath@version/filePath`, whatever the three strings and the tag function are. -/
theorem fileSource_generic_module (std : Stdlib) (modulePath version filePath : String)
    (log : List LogEntry) (h : modulePath ≠ std.ModulePath) :
    (fileSource std modulePath version filePath log).1
      = modulePath ++ "@" ++ version ++ "/" ++ filePath := by
  simp [fileSource, h]

/-- The example of C3: `github.com/foo/bar`, `v1.2.3`, `baz/qux.go`. -/
theorem fileSource_generic_module_witness :
    (fileSource exampleStdlib "github.com/foo/bar" "v1.2.3" "baz/qux.go" []).1
      = "github.com/foo/bar" ++ "@" ++ "v1.2.3" ++ "/" ++ "baz/qux.go"
    ∧ "github.com/foo/bar" ++ "@" ++ "v1.2.3" ++ "/" ++ "baz/qux.go"
      = "github.com/foo/bar@v1.2.3/baz/qux.go" :=
  ⟨fileSource_generic_module exampleStdlib "github.com/foo/bar" "v1.2.3" "baz/qux.go" []
    (by decide), by decide⟩

/-- C4: for the standard library and a version whose tag is `G`, `fileSource`
returns `repoHost/+/refs/tags/G/filePath`, where `repoHost` is `GoRepoURL` without
a leading `https://`. -/
theorem fileSource_stdlib_tag (std : Stdlib) (version filePath G : String)
    (log : List LogEntry) (h : std.TagForVersion version = .ok G) :
    (fileSource std std.ModulePath version filePath log).1
      = TrimPrefix std.GoRepoURL "https://" ++ "/+/refs/tags/" ++ G ++ "/" ++ filePath := by
  simp [fileSource, h]

/-- The example of C4: a version with the tag `go1.20.4` and the file
`net/http/server.go`. -/
theorem fileSource_stdlib_tag_witness :
    (fileSource exampleStdlib exampleStdlib.ModulePath "v1.20.4" "net/http/server.go" []).1
      = TrimPrefix exampleStdlib.GoRepoURL "https://" ++ "/+/refs/tags/" ++ "go1.20.4" ++ "/"
          ++ "net/http/server.go"
    ∧ TrimPrefix exampleStdlib.GoRepoURL "https://" = "go.googlesource.com/go" :=
  ⟨fileSource_stdlib_tag exampleStdlib "v1.20.4" "net/http/server.go" "go1.20.4" [] rfl,
    by decide⟩

/-- `TrimPrefix` removes a prefix that is there. -/
theorem TrimPrefix_append (pre host : String) : TrimPrefix (pre ++ host) pre = host := by
  have h : pre.toList.isPrefixOf (pre ++ host).toList = true := by
    rw [List.isPrefixOf_iff_prefix]
    exact ⟨host.toList, by simp [String.toList]⟩
  unfold TrimPrefix
  rw [if_pos h]
  simp [String.toList]

/-- `TrimPrefix` returns a string that does not start with the prefix as it is. -/
theorem TrimPrefix_of_not_isPrefix {s pre : String} (h : ¬ pre.toList <+: s.toList) :
    TrimPrefix s pre = s := by
  have h1 : pre.toList.isPrefixOf s.toList = false := by
    rw [← Bool.not_eq_true, List.isPrefixOf_iff_prefix]; exact h
  unfold TrimPrefix
  rw [h1]
  rfl

/-- C5: for the standard library and a version for which the tag function fails,
`fileSource` still returns a string, `repoHost/+/refs/heads/master/filePath`, which
depends neither on the version nor on the error. `repoHost` is `GoRepoURL` with a
leading `https://` removed: for `GoRepoURL = "https://" ++ host` it is `host`, and
for a `GoRepoURL` that does not start with `https://` it is `GoRepoURL`. -/
theorem fileSource_stdlib_fallback (std : Stdlib) (version filePath err : String)
    (log : List LogEntry) (h : std.TagForVersion version = .error err) :
    (fileSource std std.ModulePath version filePath log).1
        = TrimPrefix std.GoRepoURL "https://" ++ "/+/refs/heads/master/" ++ filePath
      ∧ (∀ host, std.GoRepoURL = "https://" ++ host →
          (fileSource std std.ModulePath version filePath log).1
            = host ++ "/+/refs/heads/master/" ++ filePath)
      ∧ (¬ "https://".toList <+: std.GoRepoURL.toList →
          (fileSource std std.ModulePath version filePath log).1
            = std.GoRepoURL ++ "/+/refs/heads/master/" ++ filePath) := by
  have h0 : (fileSource std std.ModulePath version filePath log).1
      = TrimPrefix std.GoRepoURL "https://" ++ "/+/refs/heads/master/" ++ filePath := by
    simp [fileSource, h]
  refine ⟨h0, ?_, ?_⟩
  · intro host hurl
    rw [h0, hurl, TrimPrefix_append]
  · intro hno
    rw [h0, TrimPrefix_of_not_isPrefix hno]

/-- The example of C5: the version `bad-version` has no tag, and the result is
`go.googlesource.com/go/+/refs/heads/master/net/http/server.go`, without the
scheme; another version without tag gives the same. -/
theorem fileSource_stdlib_fallback_witness :
    (fileSource exampleStdlib exampleStdlib.ModulePath "bad-version" "net/http/server.go" []).1
        = "go.googlesource.com/go" ++ "/+/refs/heads/master/" ++ "net/http/server.go"
      ∧ (fileSource exampleStdlib exampleStdlib.ModulePath "bad-version" "net/http/server.go" []).1
        = "go.googlesource.com/go/+/refs/heads/master/net/http/server.go"
      ∧ (fileSource exampleStdlib exampleStdlib.ModulePath "v1" "net/http/server.go" []).1
        = "go.googlesource.com/go/+/refs/heads/master/net/http/server.go" :=
  ⟨(fileSource_stdlib_fallback exampleStdlib "bad-version" "net/http/server.go"
      "invalid version bad-version" [] rfl).2.1 "go.googlesource.com/go" (by decide),
    by decide, by decide⟩

/-- C6: `fileSource` appends exactly one entry, of severity error, to the log when
the module is the standard library and the tag function fails, and leaves the log
as it is in every other case. -/
theorem fileSource_log (std : Stdlib) (modulePath version filePath : String)
    (log : List LogEntry) :
    (fileSource std modulePath version filePath log).2 =
      if modulePath = std.ModulePath then
        match std.TagForVersion version with
        | .error err => log ++ [⟨.Error, "fileSource: " ++ err⟩]
        | .ok _ => log
      else log := by
  unfold fileSource
  by_cases h : modulePath = std.ModulePath
  · simp only [h, bne_self_eq_false, Bool.false_eq_true, if_false, if_true]
    cases std.TagForVersion version <;> rfl
  · simp [h]

/-- C7: the substitution is global: in a sequence of well-formed internal anchors
interleaved with texts that have no `<`, `hackUpDocumentation` rewrites every
anchor and leaves every text as it is; anchors next to each other are rewritten
one by one. -/
theorem hackUpDocumentation_global (sep0 : List Char) (items : List (Anchor × List Char))
    (h0 : '<' ∉ sep0) (hall : ∀ x ∈ items, x.1.WellFormed ∧ '<' ∉ x.2) :
    hackUpDocumentation (interleave Anchor.source sep0 items)
      = interleave Anchor.rewritten sep0 items :=
  replaceAllAux_interleave items sep0 false h0 hall

/-- An example of C7: two anchors on one line, with text before, between and after. -/
theorem hackUpDocumentation_global_witness :
    hackUpDocumentation
        (interleave Anchor.source "see ".toList
          [(⟨"foo".toList, [], "foo".toList⟩, " and ".toList),
           (⟨"a/b".toList, "#C".toList, "b.C".toList⟩, ".".toList)])
      = interleave Anchor.rewritten "see ".toList
          [(⟨"foo".toList, [], "foo".toList⟩, " and ".toList),
           (⟨"a/b".toList, "#C".toList, "b.C".toList⟩, ".".toList)]
    ∧ interleave Anchor.source "see ".toList
          [(⟨"foo".toList, [], "foo".toList⟩, " and ".toList),
           (⟨"a/b".toList, "#C".toList, "b.C".toList⟩, ".".toList)]
      = "see <a href=\"/pkg/foo\">foo</a> and <a href=\"/pkg/a/b#C\">b.C</a>.".toList
    ∧ interleave Anchor.rewritten "see ".toList
          [(⟨"foo".toList, [], "foo".toList⟩, " and ".toList),
           (⟨"a/b".toList, "#C".toList, "b.C".toList⟩, ".".toList)]
      = "see <a href=\"/foo?tab=doc\">foo</a> and <a href=\"/a/b?tab=doc#C\">b.C</a>.".toList :=
  ⟨hackUpDocumentation_global "see ".toList
      [(⟨"foo".toList, [], "foo".toList⟩, " and ".toList),
       (⟨"a/b".toList, "#C".toList, "b.C".toList⟩, ".".toList)]
      (by decide)
      (by
        intro x hx
        simp only [List.mem_cons, List.mem_singleton, List.not_mem_nil, or_false] at hx
        rcases hx with rfl | rfl
        · exact ⟨⟨by decide, by decide, Or.inl rfl, by decide, by decide⟩, by decide⟩
        · exact ⟨⟨by decide, by decide, Or.inr ⟨"C".toList, rfl, by decide⟩, by decide,
            by decide⟩, by decide⟩),
    by decide, by decide⟩

/-- C8 as stated fails: with an empty path the anchor is left as it is; with a
newline in the link text the anchor is left as it is; and with a link text that
closes the anchor and opens another internal anchor, that one is rewritten too. -/
theorem hackUpDocumentation_any_text_counterexample :
    ((∀ c ∈ "".toList, c ≠ '?' ∧ c ≠ '#' ∧ c ≠ '"')
      ∧ hackUpDocumentation
          ("<a href=\"/pkg/".toList ++ "".toList ++ "\">".toList ++ "x".toList ++ "</a>".toList)
        = "<a href=\"/pkg/\">x</a>".toList
      ∧ hackUpDocumentation
          ("<a href=\"/pkg/".toList ++ "".toList ++ "\">".toList ++ "x".toList ++ "</a>".toList)
        ≠ "<a href=\"/".toList ++ "".toList ++ "?tab=doc\">".toList ++ "x".toList
            ++ "</a>".toList)
    ∧ ((∀ c ∈ "p".toList, c ≠ '?' ∧ c ≠ '#' ∧ c ≠ '"')
      ∧ hackUpDocumentation
          ("<a href=\"/pkg/".toList ++ "p".toList ++ "\">".toList ++ "a\nb".toList
            ++ "</a>".toList)
        = "<a href=\"/pkg/p\">a\nb</a>".toList
      ∧ hackUpDocumentation
          ("<a href=\"/pkg/".toList ++ "p".toList ++ "\">".toList ++ "a\nb".toList
            ++ "</a>".toList)
        ≠ "<a href=\"/".toList ++ "p".toList ++ "?tab=doc\">".toList ++ "a\nb".toList
            ++ "</a>".toList)
    ∧ (hackUpDocumentation
          ("<a href=\"/pkg/".toList ++ "p".toList ++ "\">".toList
            ++ "</a><a href=\"/pkg/q\">z".toList ++ "</a>".toList)
        = "<a href=\"/p?tab=doc\"></a><a href=\"/q?tab=doc\">z</a>".toList
      ∧ hackUpDocumentation
          ("<a href=\"/pkg/".toList ++ "p".toList ++ "\">".toList
            ++ "</a><a href=\"/pkg/q\">z".toList ++ "</a>".toList)
        ≠ "<a href=\"/".toList ++ "p".toList ++ "?tab=doc\">".toList
            ++ "</a><a href=\"/pkg/q\">z".toList ++ "</a>".toList) := by
  decide

/-- C8, amended: an anchor without fragment whose path is not empty and has none of
`?`, `#` and `"`, and whose link text has no newline and does not contain
`<a href="/pkg/`, is rewritten: `<a href="/pkg/P">T</a>` becomes
`<a href="/P?tab=doc">T</a>`. The link text may contain `</a>`. -/
theorem hackUpDocumentation_any_text (P T : List Char) (hP : P ≠ [])
    (hPc : ∀ c ∈ P, c ≠ '?' ∧ c ≠ '#' ∧ c ≠ '"')
    (hT : '\n' ∉ T) (hlink : ¬ "<a href=\"/pkg/".toList <:+: T) :
    hackUpDocumentation ("<a href=\"/pkg/".toList ++ P ++ "\">".toList ++ T ++ "</a>".toList)
      = "<a href=\"/".toList ++ P ++ "?tab=doc".toList ++ "\">".toList ++ T ++ "</a>".toList := by
  obtain ⟨A, B, e, hA⟩ := exists_first_occurrence "</a>".toList (by decide)
    (T ++ "</a>".toList) (List.suffix_append T "</a>".toList).isInfix
  have e1 : T ++ "</a>".toList = A ++ ("</a>".toList ++ B) := by
    rw [e, List.append_assoc]
  have hAT : A <+: T := by
    rcases List.append_eq_append_iff.mp e1 with ⟨a1, ha1, ha2⟩ | ⟨c1, hc1, _⟩
    · have hlen := congrArg List.length ha2
      simp only [List.length_append] at hlen
      have : a1 = [] := List.eq_nil_of_length_eq_zero (by omega)
      rw [ha1, this, List.append_nil]
    · exact ⟨c1, hc1.symm⟩
  have hnl : '\n' ∉ A := fun hm => hT (hAT.subset hm)
  have hB : ¬ "<a href=\"/pkg/".toList <:+: B := by
    intro hi
    apply no_opener_append_close hlink
    rw [e]
    exact hi.trans (List.suffix_append _ B).isInfix
  have h := replaceAllAux_anchor P [] A B false hP hPc (Or.inl rfl) hnl
    (fun T1 T2 e2 ne hp => hA T1 T2 e2 ne (by rw [List.append_assoc]; exact hp))
  rw [replaceAllAux_of_no_opener B hB true] at h
  unfold hackUpDocumentation Regex.ReplaceAll
  simp only [List.append_assoc, List.nil_append] at h ⊢
  rw [e1, h]

/-- An example of C8 as amended: a link text that contains `</a>`. -/
theorem hackUpDocumentation_any_text_witness :
    hackUpDocumentation
        ("<a href=\"/pkg/".toList ++ "p".toList ++ "\">".toList ++ "x</a>y".toList
          ++ "</a>".toList)
      = "<a href=\"/".toList ++ "p".toList ++ "?tab=doc".toList ++ "\">".toList
          ++ "x</a>y".toList ++ "</a>".toList :=
  hackUpDocumentation_any_text "p".toList "x</a>y".toList (by decide) (by decide) (by decide)
    (by decide)

/-- C9: an href that already carries a query string is not touched: for a path `P`
without `?`, `#` and `"`, and a query `Q` and a link text `T` that do not contain
`<a href="/pkg/`, the anchor `<a href="/pkg/P?Q">T</a>` is returned as it is. -/
theorem hackUpDocumentation_query_untouched (P Q T : List Char)
    (hPc : ∀ c ∈ P, c ≠ '?' ∧ c ≠ '#' ∧ c ≠ '"')
    (hQ : ¬ "<a href=\"/pkg/".toList <:+: Q) (hT : ¬ "<a href=\"/pkg/".toList <:+: T) :
    hackUpDocumentation
        ("<a href=\"/pkg/".toList ++ P ++ "?".toList ++ Q ++ "\">".toList ++ T ++ "</a>".toList)
      = "<a href=\"/pkg/".toList ++ P ++ "?".toList ++ Q ++ "\">".toList ++ T
          ++ "</a>".toList := by
  have hnone : packageLinkRegexp.matchAt
      ('<' :: ("a href=\"/pkg/".toList ++ (P ++ '?' :: (Q ++ ("\">".toList ++
        (T ++ "</a>".toList)))))) = none :=
    matchAt_query_eq_none P (Q ++ ("\">".toList ++ (T ++ "</a>".toList))) hPc
  have hno : ¬ "<a href=\"/pkg/".toList <:+:
      "a href=\"/pkg/".toList ++ (P ++ '?' :: (Q ++ ("\">".toList ++ (T ++ "</a>".toList)))) := by
    intro hi
    rw [← List.append_assoc] at hi
    rcases isInfix_append_cons_of_not_mem (y := '?') (by decide) (by decide) _ _ hi with h1 | h1
    · have h2 : ('<' :: "a href=\"/pkg/".toList) <:+: P :=
        isInfix_of_head_not_mem "a href=\"/pkg/".toList P (by decide) h1
      exact (hPc '"' (h2.subset (by decide))).2.2 rfl
    · have h2 : "<a href=\"/pkg/".toList <:+: (Q ++ ['"']) ++ '>' :: (T ++ "</a>".toList) := by
        rw [List.append_assoc]
        exact h1
      rcases isInfix_append_cons_of_not_mem (y := '>') (by decide) (by decide) _ _ h2 with h3 | h3
      · exact hQ (isInfix_concat_of_getLast (by decide) (by decide) h3)
      · exact no_opener_append_close hT h3
  have e : "<a href=\"/pkg/".toList ++ P ++ "?".toList ++ Q ++ "\">".toList ++ T ++ "</a>".toList
      = '<' :: ("a href=\"/pkg/".toList ++ (P ++ '?' :: (Q ++ ("\">".toList ++
          (T ++ "</a>".toList))))) := by
    simp
  unfold hackUpDocumentation Regex.ReplaceAll
  rw [e, replaceAllAux_of_none _ _ hnone, replaceAllAux_of_no_opener _ hno false]

/-- An example of C9: an anchor with a query string and a fragment. -/
theorem hackUpDocumentation_query_untouched_witness :
    hackUpDocumentation
        ("<a href=\"/pkg/".toList ++ "foo/bar".toList ++ "?".toList ++ "tab=doc#Baz".toList
          ++ "\">".toList ++ "foo/bar".toList ++ "</a>".toList)
      = "<a href=\"/pkg/".toList ++ "foo/bar".toList ++ "?".toList ++ "tab=doc#Baz".toList
          ++ "\">".toList ++ "foo/bar".toList ++ "</a>".toList :=
  hackUpDocumentation_query_untouched "foo/bar".toList "tab=doc#Baz".toList "foo/bar".toList
    (by decide) (by decide) (by decide)

/-- C10: no match means no change: an input that does not contain `<a href="/pkg/`
is returned as it is. -/
theorem hackUpDocumentation_no_link (docBytes : List Char)
    (h : ¬ "<a href=\"/pkg/".toList <:+: docBytes) :
    hackUpDocumentation docBytes = docBytes :=
  replaceAllAux_of_no_opener docBytes h false

/-- An example of C10: malformed HTML with an external link and an unclosed tag. -/
theorem hackUpDocumentation_no_link_witness :
    hackUpDocumentation "<p><a href=\"/x\">x</a><a href=\"/pk".toList
      = "<p><a href=\"/x\">x</a><a href=\"/pk".toList :=
  hackUpDocumentation_no_link "<p><a href=\"/x\">x</a><a href=\"/pk".toList (by decide)

/-! ## What a match of the link pattern looks like -/

/-- A thread of a literal consumed the literal and left the submatches alone. -/
theorem run_literal_sound {l s : List Char} {caps : Caps} {t : Thread}
    (h : t ∈ (Regex.literal l).run s caps) : t.consumed = l ∧ t.caps = caps := by
  by_cases hl : l.isPrefixOf s = true
  · simp only [Regex.run, hl, if_true, List.mem_singleton] at h
    subst h
    exact ⟨rfl, rfl⟩
  · simp [Regex.run, hl] at h

/-- A thread of the optional fragment consumed nothing or a `#` and runes other
than `"`. -/
theorem linkFragment_sound {s : List Char} {caps : Caps} {t : Thread}
    (h : t ∈ linkFragment.run s caps) :
    (t.consumed = [] ∨ ∃ G, t.consumed = '#' :: G ∧ '"' ∉ G) ∧ t.caps = caps := by
  simp only [linkFragment, Regex.run, run_charClass, if_true, List.mem_append,
    List.mem_singleton, mem_seqThreads] at h
  rcases h with ⟨t1, ht1, u, hu, rfl⟩ | rfl
  · obtain ⟨h1, h2⟩ := run_literal_sound ht1
    obtain ⟨-, h4, h5⟩ := starRun_stepChar_sound true _ _ _ _ _ hu
    refine ⟨Or.inr ⟨u.consumed, by simp [h1], ?_⟩, by rw [h4, h2]⟩
    intro hm
    have := h5 '"' hm
    simp at this
  · exact ⟨Or.inl rfl, rfl⟩

/-- A thread of the third group consumed a fragment part, `">`, a text without
newline and `</a>`, and recorded it as group 3. -/
theorem linkTail_sound {s : List Char} {caps : Caps} {t : Thread}
    (h : t ∈ linkTail.run s caps) :
    ∃ F T, (F = [] ∨ ∃ G, F = '#' :: G ∧ '"' ∉ G) ∧ '\n' ∉ T ∧
      t.consumed = F ++ ("\">".toList ++ (T ++ "</a>".toList)) ∧
      t.caps = caps.set 3 (some t.consumed) := by
  simp only [linkTail, Regex.run, run_anyCharNotNL, List.mem_map, mem_seqThreads] at h
  obtain ⟨x, ⟨f, hf, v, ⟨g, hg, w, ⟨y, hy, z, hz, rfl⟩, rfl⟩, rfl⟩, rfl⟩ := h
  obtain ⟨hF, hfc⟩ := linkFragment_sound hf
  have hg1 := run_literal_sound (l := "\">".toList) (by simpa [Regex.run] using hg)
  have hz1 := run_literal_sound (l := "</a>".toList) (by simpa [Regex.run] using hz)
  obtain ⟨-, hy2, hy3⟩ := starRun_stepChar_sound false _ _ _ _ _ hy
  refine ⟨f.consumed, y.consumed, hF, ?_, ?_, ?_⟩
  · intro hm
    have := hy3 '\n' hm
    simp at this
  · simp only [hg1.1, hz1.1]
  · simp only [hz1.2, hy2, hg1.2, hfc, hg1.1, hz1.1]

/-- A match of the link pattern: it is an anchor with a non-empty path of path
runes, a fragment part, and a link text without newline; its submatches are the
whole match, `<a href="/`, the path, and the anchor from the fragment on. -/
theorem matchAt_sound {s : List Char} {m : Thread} (h : packageLinkRegexp.matchAt s = some m) :
    ∃ P F T, P ≠ [] ∧ (∀ c ∈ P, c ≠ '?' ∧ c ≠ '#' ∧ c ≠ '"') ∧
      (F = [] ∨ ∃ G, F = '#' :: G ∧ '"' ∉ G) ∧ '\n' ∉ T ∧
      m.consumed = "<a href=\"/".toList ++ ("pkg/".toList ++ (P ++ (F ++ ("\">".toList ++
        (T ++ "</a>".toList))))) ∧
      s = m.consumed ++ m.rest ∧
      m.caps = [some m.consumed, some "<a href=\"/".toList, some P,
        some (F ++ ("\">".toList ++ (T ++ "</a>".toList)))] := by
  unfold Regex.matchAt at h
  have hn : packageLinkRegexp.numSubexp = 3 := by decide
  rw [hn] at h
  cases hr : packageLinkRegexp.run s (List.replicate (3 + 1) none) with
  | nil => rw [hr] at h; simp at h
  | cons t l =>
    rw [hr] at h
    simp only [Option.some.injEq] at h
    subst h
    have hmem : t ∈ packageLinkRegexp.run s (List.replicate (3 + 1) none) := by
      rw [hr]; simp
    have hsplit := run_split _ _ _ _ hmem
    simp only [packageLinkRegexp] at hmem
    rw [Regex.run, mem_seqThreads] at hmem
    obtain ⟨t1, ht1, u1, hu1, rfl⟩ := hmem
    rw [Regex.run, List.mem_map] at ht1
    obtain ⟨t0, ht0, rfl⟩ := ht1
    obtain ⟨h01, h02⟩ := run_literal_sound ht0
    rw [Regex.run, mem_seqThreads] at hu1
    obtain ⟨t2, ht2, u2, hu2, rfl⟩ := hu1
    obtain ⟨h21, h22⟩ := run_literal_sound ht2
    rw [Regex.run, mem_seqThreads] at hu2
    obtain ⟨t3, ht3, u3, hu3, rfl⟩ := hu2
    obtain ⟨-, hP, hPc, h3c⟩ := linkPath_sound ht3
    obtain ⟨F, T, hF, hT, h4, h4c⟩ := linkTail_sound hu3
    refine ⟨t3.consumed, F, T, hP, hPc, hF, hT, ?_, hsplit, ?_⟩
    · simp only [h01, h21, h4]
    · simp only [h4c, h3c, h22, h02, h01, h21, h4]
      rfl

/-! ## The rewrite, step by step -/

/-- The link pattern does not match the empty text, so the loop of `ReplaceAll`
does the same at the end of a match as anywhere else. -/
theorem replaceAllAux_flag (b : Bool) (s : List Char) :
    replaceAllAux packageLinkRegexp "$1$2?tab=doc$3".toList 0 b s
      = replaceAllAux packageLinkRegexp "$1$2?tab=doc$3".toList 0 false s := by
  cases s with
  | nil => rw [replaceAllAux_nil, replaceAllAux_nil]
  | cons c t =>
    cases hm : packageLinkRegexp.matchAt (c :: t) with
    | none => rw [replaceAllAux_of_none _ _ hm, replaceAllAux_of_none _ _ hm]
    | some m =>
      obtain ⟨P, F, T, -, -, -, -, hc, hs, -⟩ := matchAt_sound hm
      have hne : m.consumed ≠ [] := by rw [hc]; simp
      have hm2 : packageLinkRegexp.matchAt (m.consumed ++ m.rest)
          = some ⟨m.consumed, m.rest, m.caps⟩ := by rw [← hs]; exact hm
      rw [hs, replaceAllAux_of_match _ b hne hm2, replaceAllAux_of_match _ false hne hm2]

theorem hackUpDocumentation_nil : hackUpDocumentation [] = [] :=
  replaceAllAux_nil 0 false

/-- Where the link pattern does not match, `hackUpDocumentation` copies one rune. -/
theorem hackUpDocumentation_cons_of_none {c : Char} {t : List Char}
    (h : packageLinkRegexp.matchAt (c :: t) = none) :
    hackUpDocumentation (c :: t) = c :: hackUpDocumentation t :=
  replaceAllAux_of_none _ false h

/-- Where the link pattern matches, `hackUpDocumentation` writes group 1, group 2,
`?tab=doc` and group 3, and goes on behind the match. -/
theorem hackUpDocumentation_of_match {s : List Char} {m : Thread} {g0 : Option (List Char)}
    {g1 g2 g3 : List Char} (h : packageLinkRegexp.matchAt s = some m)
    (hcaps : m.caps = [g0, some g1, some g2, some g3]) :
    hackUpDocumentation s
      = g1 ++ (g2 ++ ("?tab=doc".toList ++ g3)) ++ hackUpDocumentation m.rest := by
  obtain ⟨P, F, T, -, -, -, -, hc, hs, -⟩ := matchAt_sound h
  have hne : m.consumed ≠ [] := by rw [hc]; simp
  have hm2 : packageLinkRegexp.matchAt (m.consumed ++ m.rest)
      = some ⟨m.consumed, m.rest, m.caps⟩ := by rw [← hs]; exact h
  unfold hackUpDocumentation Regex.ReplaceAll
  rw [hs, replaceAllAux_of_match _ false hne hm2, replaceAllAux_flag, hcaps, expand_docTemplate]

theorem replaceCountAux_skip (re : Regex) (b : Bool) (s : List Char) :
    ∀ (X : List Char), replaceCountAux re X.length b (X ++ s) = replaceCountAux re 0 b s := by
  intro X
  induction X with
  | nil => rfl
  | cons x X ih =>
    rw [List.length_cons, List.cons_append, replaceCountAux]
    exact ih

theorem matchCount_nil : matchCount [] = 0 := by
  unfold matchCount
  rw [replaceCountAux, matchAt_nil]

/-- Where the link pattern does not match, nothing is replaced at this rune. -/
theorem matchCount_cons_of_none {c : Char} {t : List Char}
    (h : packageLinkRegexp.matchAt (c :: t) = none) : matchCount (c :: t) = matchCount t := by
  unfold matchCount
  rw [replaceCountAux, h]

/-- Where the link pattern matches, one replacement is made and the count goes on
behind the match. -/
theorem matchCount_of_match {s : List Char} {m : Thread}
    (h : packageLinkRegexp.matchAt s = some m) : matchCount s = matchCount m.rest + 1 := by
  obtain ⟨P, F, T, -, -, -, -, hc, hs, -⟩ := matchAt_sound h
  have e : ∀ (b : Bool) (r : List Char),
      replaceCountAux packageLinkRegexp 0 b r = replaceCountAux packageLinkRegexp 0 false r := by
    intro b r
    cases r with
    | nil => rw [replaceCountAux, replaceCountAux, matchAt_nil]
    | cons d r =>
      cases hm : packageLinkRegexp.matchAt (d :: r) with
      | none => rw [replaceCountAux, replaceCountAux, hm]
      | some m1 =>
        obtain ⟨P1, F1, T1, -, -, -, -, hc1, -, -⟩ := matchAt_sound hm
        have hne1 : m1.consumed.isEmpty = false := by rw [hc1]; rfl
        rw [replaceCountAux, replaceCountAux, hm]
        simp only [hne1, Bool.false_eq_true, if_false]
  cases hcons : m.consumed with
  | nil => rw [hc] at hcons; simp at hcons
  | cons a M =>
    unfold matchCount
    have hs2 : s = a :: (M ++ m.rest) := by rw [hs, hcons]; rfl
    have h2 : packageLinkRegexp.matchAt (a :: (M ++ m.rest)) = some m := by rw [← hs2]; exact h
    rw [hs2, replaceCountAux, h2]
    simp only [hcons, List.isEmpty_cons, Bool.false_eq_true, if_false, List.length_cons,
      Nat.add_sub_cancel]
    rw [replaceCountAux_skip, e true]
    omega

/-- Induction along the loop of `ReplaceAll` for the link pattern: a property
holds of every input when it holds of the empty input, is kept by a rune at which
the pattern does not match, and is kept by a matched anchor in front. -/
theorem hackUpDocumentation_induction {motive : List Char → Prop} (hnil : motive [])
    (hcopy : ∀ c t, packageLinkRegexp.matchAt (c :: t) = none → motive t → motive (c :: t))
    (hanchor : ∀ P F T rest, P ≠ [] → (∀ c ∈ P, c ≠ '?' ∧ c ≠ '#' ∧ c ≠ '"') →
      (F = [] ∨ ∃ G, F = '#' :: G ∧ '"' ∉ G) → '\n' ∉ T →
      hackUpDocumentation ("<a href=\"/".toList ++ ("pkg/".toList ++ (P ++ (F ++
          ("\">".toList ++ (T ++ "</a>".toList))))) ++ rest)
        = "<a href=\"/".toList ++ (P ++ ("?tab=doc".toList ++ (F ++ ("\">".toList ++
            (T ++ "</a>".toList))))) ++ hackUpDocumentation rest →
      matchCount ("<a href=\"/".toList ++ ("pkg/".toList ++ (P ++ (F ++
          ("\">".toList ++ (T ++ "</a>".toList))))) ++ rest) = matchCount rest + 1 →
      motive rest →
      motive ("<a href=\"/".toList ++ ("pkg/".toList ++ (P ++ (F ++
          ("\">".toList ++ (T ++ "</a>".toList))))) ++ rest)) :
    ∀ s, motive s := by
  have key : ∀ (n : Nat) (s : List Char), s.length ≤ n → motive s := by
    intro n
    induction n with
    | zero =>
      intro s hs
      have : s = [] := List.eq_nil_of_length_eq_zero (by omega)
      rw [this]
      exact hnil
    | succ n ih =>
      intro s hs
      cases s with
      | nil => exact hnil
      | cons c t =>
        cases hm : packageLinkRegexp.matchAt (c :: t) with
        | none => exact hcopy c t hm (ih t (by simpa using hs))
        | some m =>
          obtain ⟨P, F, T, hP, hPc, hF, hT, hc, hsplit, hcaps⟩ := matchAt_sound hm
          have hlen := congrArg List.length hsplit
          rw [hc] at hlen
          simp only [List.length_append, List.length_cons] at hlen hs
          have h1 := hackUpDocumentation_of_match hm hcaps
          have h2 := matchCount_of_match hm
          rw [hsplit, hc] at h1 h2
          rw [hsplit, hc]
          exact hanchor P F T m.rest hP hPc hF hT h1 h2 (ih m.rest (by
            simp at hlen
            omega))
  intro s
  exact key s.length s (Nat.le_refl _)

/-! ## Anchors the link pattern does not match -/

/-- The link pattern does not match behind `<a href="/pkg/` where no thread of
the path group can be continued by the third group. -/
theorem matchAt_eq_none_of_tail {s : List Char}
    (h : ∀ caps, seqThreads (linkPath.run s caps) linkTail.run = []) :
    packageLinkRegexp.matchAt ("<a href=\"/".toList ++ ("pkg/".toList ++ s)) = none := by
  apply matchAt_eq_none
  simp only [packageLinkRegexp]
  rw [Regex.run, Regex.run, run_literal_append]
  simp only [List.map_cons, List.map_nil, seqThreads_cons, seqThreads_nil, List.append_nil,
    List.map_eq_nil_iff]
  rw [Regex.run, run_literal_append]
  simp only [seqThreads_cons, seqThreads_nil, List.append_nil, List.map_eq_nil_iff]
  rw [Regex.run]
  exact h _

/-- The third group does not match `">` followed by a text without `<` and a
newline: `.` does not match the newline, and `</a>` does not start before it. -/
theorem linkTail_newline_eq_nil (T1 X : List Char) (caps : Caps) (hT1 : '<' ∉ T1) :
    linkTail.run ("\">".toList ++ (T1 ++ '\n' :: X)) caps = [] := by
  have e1 : (Regex.literal ['#']).run ("\">".toList ++ (T1 ++ '\n' :: X)) caps = [] :=
    run_literal_eq_nil_of_head (a := '#') caps rfl (by simp)
  have e2 := run_literal_append "\">".toList (T1 ++ '\n' :: X) caps
  have e3 : seqThreads
      (starRun false (stepChar fun c => c != '\n') (T1 ++ '\n' :: X).length (T1 ++ '\n' :: X) caps)
      (Regex.literal "</a>".toList).run = [] := by
    apply seqThreads_eq_nil
    intro t ht
    obtain ⟨h1, -, h3⟩ := starRun_stepChar_sound false _ _ _ _ _ ht
    obtain ⟨P2, hP2, hR⟩ := append_eq_append_cons_of_not_mem h1.symm (fun hm => by
      have := h3 '\n' hm
      simp at this)
    have hhead : t.rest.head? ≠ some '<' := by
      rw [hR]
      cases P2 with
      | nil => simp
      | cons b P2 =>
        simp only [List.cons_append, List.head?_cons, ne_eq, Option.some.injEq]
        intro hb
        apply hT1
        rw [hP2, ← hb]
        simp
    exact run_literal_eq_nil_of_head (l := "</a>".toList) (a := '<') t.caps (by decide) hhead
  simp only [linkTail, linkFragment, Regex.run, run_anyCharNotNL] at e1 e2 e3 ⊢
  simp only [if_true]
  rw [e1]
  simp only [seqThreads_nil, List.nil_append, seqThreads_cons, List.map_nil, List.map_eq_nil_iff,
    List.append_nil]
  rw [e2]
  simp only [seqThreads_nil, List.nil_append, seqThreads_cons, List.map_nil, List.map_eq_nil_iff,
    List.append_nil]
  exact e3

/-- The link pattern does not match an anchor whose link text, free of `<`, runs
into a newline. -/
theorem matchAt_newline_eq_none (P T1 X : List Char)
    (hPc : ∀ c ∈ P, c ≠ '?' ∧ c ≠ '#' ∧ c ≠ '"') (hT1 : '<' ∉ T1) :
    packageLinkRegexp.matchAt
        ("<a href=\"/".toList ++ ("pkg/".toList ++ (P ++ ("\">".toList ++ (T1 ++ '\n' :: X)))))
      = none := by
  apply matchAt_eq_none_of_tail
  intro caps
  apply seqThreads_eq_nil
  intro t ht
  obtain ⟨h1, -, h3, -⟩ := linkPath_sound ht
  have h1a : t.consumed ++ t.rest = P ++ '"' :: ('>' :: (T1 ++ '\n' :: X)) := h1.symm
  obtain ⟨P2, hP2, hR⟩ := append_eq_append_cons_of_not_mem h1a (fun hm => (h3 _ hm).2.2 rfl)
  rw [hR]
  cases P2 with
  | nil => exact linkTail_newline_eq_nil T1 X _ hT1
  | cons b P2 =>
    have hb := hPc b (by simp [hP2])
    exact linkTail_eq_nil _ (by simpa using hb.2.1) (by simpa using hb.2.2)

/-- The link pattern does not match an anchor with an empty path. -/
theorem matchAt_empty_path_eq_none (X : List Char) :
    packageLinkRegexp.matchAt ("<a href=\"/".toList ++ ("pkg/".toList ++ '"' :: X)) = none := by
  apply matchAt_eq_none_of_tail
  intro caps
  apply seqThreads_eq_nil
  intro t ht
  obtain ⟨h1, h2, h3, -⟩ := linkPath_sound ht
  cases hc : t.consumed with
  | nil => exact absurd hc h2
  | cons a l =>
    rw [hc] at h1
    simp only [List.cons_append, List.cons.injEq] at h1
    exact absurd h1.1.symm (h3 a (by simp [hc])).2.2

/-! ## The claims, continued -/

/-- C13: `fetchDocumentationDetails` never fails and only the markup can be
altered: the error is nil and `GOOS` and `GOARCH` are those of the package record
for either value of the toggle, and with the toggle enabled `Documentation` is
`hackUpDocumentation` of the record's `DocumentationHTML`. -/
theorem fetchDocumentationDetails_total (hack : Bool) (pkg : VersionedPackage) :
    (fetchDocumentationDetails hack pkg).2 = none
      ∧ (fetchDocumentationDetails hack pkg).1.GOOS = pkg.GOOS
      ∧ (fetchDocumentationDetails hack pkg).1.GOARCH = pkg.GOARCH
      ∧ (fetchDocumentationDetails true pkg).1.Documentation
          = hackUpDocumentation pkg.DocumentationHTML := by
  simp [fetchDocumentationDetails]

/-- C14: the rewrite toggle is enabled exactly when the value read for
`GO_DISCOVERY_DOCUMENTATION_HACK`, empty when the variable is not set, is the
string `TRUE`; `true`, `True`, `1`, `TRUE ` with a blank, the empty string and an
unset variable all leave it disabled. -/
theorem doDocumentationHack_iff (environ : String → Option String) :
    (doDocumentationHack environ = true
        ↔ Getenv environ "GO_DISCOVERY_DOCUMENTATION_HACK" = "TRUE")
      ∧ doDocumentationHack
          (fun key => if key = "GO_DISCOVERY_DOCUMENTATION_HACK" then some "TRUE" else none) = true
      ∧ doDocumentationHack
          (fun key => if key = "GO_DISCOVERY_DOCUMENTATION_HACK" then some "true" else none) = false
      ∧ doDocumentationHack
          (fun key => if key = "GO_DISCOVERY_DOCUMENTATION_HACK" then some "True" else none) = false
      ∧ doDocumentationHack
          (fun key => if key = "GO_DISCOVERY_DOCUMENTATION_HACK" then some "1" else none) = false
      ∧ doDocumentationHack
          (fun key => if key = "GO_DISCOVERY_DOCUMENTATION_HACK" then some "TRUE " else none) = false
      ∧ doDocumentationHack
          (fun key => if key = "GO_DISCOVERY_DOCUMENTATION_HACK" then some "" else none) = false
      ∧ doDocumentationHack (fun _ => none) = false := by
  refine ⟨by simp [doDocumentationHack], ?_, ?_, ?_, ?_, ?_, ?_, ?_⟩ <;> decide

/-- Runes other than `<` in front of the input are copied, and the rewrite of what
follows does not depend on them. -/
theorem hackUpDocumentation_append_of_no_lt (pre rest : List Char) (h : '<' ∉ pre) :
    hackUpDocumentation (pre ++ rest) = pre ++ hackUpDocumentation rest := by
  induction pre with
  | nil => rfl
  | cons c t ih =>
    have hc : c ≠ '<' := fun e => h (by simp [e])
    have hnone : packageLinkRegexp.matchAt (c :: (t ++ rest)) = none :=
      matchAt_eq_none_of_no_opener (by
        rintro ⟨r, hr⟩
        simp at hr
        exact hc hr.1.symm)
    rw [List.cons_append, hackUpDocumentation_cons_of_none hnone,
      ih (fun hm => h (by simp [hm]))]
    rfl

/-- C15: text in front of the first `<` passes through untouched and does not
change what is matched behind it: for `pre` without `<`,
`hackUpDocumentation (pre ++ rest) = pre ++ hackUpDocumentation rest`. -/
theorem hackUpDocumentation_text_before (pre rest : List Char) (h : '<' ∉ pre) :
    hackUpDocumentation (pre ++ rest) = pre ++ hackUpDocumentation rest :=
  hackUpDocumentation_append_of_no_lt pre rest h

/-- An example of C15: text in front of an anchor. -/
theorem hackUpDocumentation_text_before_witness :
    hackUpDocumentation ("func > x: ".toList ++ "<a href=\"/pkg/io#Reader\">io.Reader</a>".toList)
      = "func > x: ".toList
          ++ hackUpDocumentation "<a href=\"/pkg/io#Reader\">io.Reader</a>".toList
    ∧ hackUpDocumentation "<a href=\"/pkg/io#Reader\">io.Reader</a>".toList
      = "<a href=\"/io?tab=doc#Reader\">io.Reader</a>".toList :=
  ⟨hackUpDocumentation_text_before "func > x: ".toList
    "<a href=\"/pkg/io#Reader\">io.Reader</a>".toList (by decide), by decide⟩

/-- C17: `.` does not match a newline, so an internal anchor whose link text is
split across lines is left as it is: for a path `P` without `?`, `#` and `"` and
texts `T1`, `T2` without `<`, the anchor `<a href="/pkg/P">T1`, newline, `T2</a>`
is returned unchanged; and so is the anchor with an empty path,
`<a href="/pkg/">T1</a>`. -/
theorem hackUpDocumentation_newline_untouched (P T1 T2 : List Char)
    (hPc : ∀ c ∈ P, c ≠ '?' ∧ c ≠ '#' ∧ c ≠ '"') (hT1 : '<' ∉ T1) (hT2 : '<' ∉ T2) :
    hackUpDocumentation
        ("<a href=\"/pkg/".toList ++ P ++ "\">".toList ++ T1 ++ "\n".toList ++ T2
          ++ "</a>".toList)
      = "<a href=\"/pkg/".toList ++ P ++ "\">".toList ++ T1 ++ "\n".toList ++ T2
          ++ "</a>".toList
    ∧ hackUpDocumentation ("<a href=\"/pkg/".toList ++ "\">".toList ++ T1 ++ "</a>".toList)
      = "<a href=\"/pkg/".toList ++ "\">".toList ++ T1 ++ "</a>".toList := by
  constructor
  · have hnone : packageLinkRegexp.matchAt
        ('<' :: ("a href=\"/pkg/".toList ++ (P ++ ("\">".toList ++ (T1 ++ '\n' ::
          (T2 ++ "</a>".toList)))))) = none :=
      matchAt_newline_eq_none P T1 (T2 ++ "</a>".toList) hPc hT1
    have hno : ¬ "<a href=\"/pkg/".toList <:+:
        "a href=\"/pkg/".toList ++ (P ++ ("\">".toList ++ (T1 ++ '\n' ::
          (T2 ++ "</a>".toList)))) := by
      intro hi
      have h2 : "<a href=\"/pkg/".toList <:+:
          (("a href=\"/pkg/".toList ++ P) ++ ['"']) ++ '>' :: (T1 ++ '\n' ::
            (T2 ++ "</a>".toList)) := by
        simpa using hi
      rcases isInfix_append_cons_of_not_mem (y := '>') (by decide) (by decide) _ _ h2 with h3 | h3
      · have h4 := isInfix_concat_of_getLast (by decide) (by decide) h3
        have h5 : ('<' :: "a href=\"/pkg/".toList) <:+: P :=
          isInfix_of_head_not_mem "a href=\"/pkg/".toList P (by decide) h4
        exact (hPc '"' (h5.subset (by decide))).2.2 rfl
      · rcases isInfix_append_cons_of_not_mem (y := '\n') (by decide) (by decide) _ _ h3
          with h4 | h4
        · exact no_opener_of_no_lt hT1 h4
        · exact no_opener_append_close (no_opener_of_no_lt hT2) h4
    have e : "<a href=\"/pkg/".toList ++ P ++ "\">".toList ++ T1 ++ "\n".toList ++ T2
          ++ "</a>".toList
        = '<' :: ("a href=\"/pkg/".toList ++ (P ++ ("\">".toList ++ (T1 ++ '\n' ::
            (T2 ++ "</a>".toList))))) := by
      simp
    rw [e, hackUpDocumentation_cons_of_none hnone]
    unfold hackUpDocumentation Regex.ReplaceAll
    rw [replaceAllAux_of_no_opener _ hno false]
  · have hnone : packageLinkRegexp.matchAt
        ('<' :: ("a href=\"/pkg/".toList ++ '"' :: ('>' :: (T1 ++ "</a>".toList)))) = none :=
      matchAt_empty_path_eq_none ('>' :: (T1 ++ "</a>".toList))
    have hno : ¬ "<a href=\"/pkg/".toList <:+:
        "a href=\"/pkg/".toList ++ '"' :: ('>' :: (T1 ++ "</a>".toList)) := by
      intro hi
      have h2 : "<a href=\"/pkg/".toList <:+:
          "a href=\"/pkg/\"".toList ++ '>' :: (T1 ++ "</a>".toList) := by
        simpa using hi
      rcases isInfix_append_cons_of_not_mem (y := '>') (by decide) (by decide) _ _ h2 with h3 | h3
      · exact absurd h3 (by decide)
      · exact no_opener_append_close (no_opener_of_no_lt hT1) h3
    have e : "<a href=\"/pkg/".toList ++ "\">".toList ++ T1 ++ "</a>".toList
        = '<' :: ("a href=\"/pkg/".toList ++ '"' :: ('>' :: (T1 ++ "</a>".toList))) := by
      simp
    rw [e, hackUpDocumentation_cons_of_none hnone]
    unfold hackUpDocumentation Regex.ReplaceAll
    rw [replaceAllAux_of_no_opener _ hno false]

/-- An example of C17: a link text on two lines, and an anchor with an empty path. -/
theorem hackUpDocumentation_newline_untouched_witness :
    hackUpDocumentation
        ("<a href=\"/pkg/".toList ++ "foo/bar".toList ++ "\">".toList ++ "foo".toList
          ++ "\n".toList ++ "bar".toList ++ "</a>".toList)
      = "<a href=\"/pkg/".toList ++ "foo/bar".toList ++ "\">".toList ++ "foo".toList
          ++ "\n".toList ++ "bar".toList ++ "</a>".toList
    ∧ hackUpDocumentation
        ("<a href=\"/pkg/".toList ++ "\">".toList ++ "foo".toList ++ "</a>".toList)
      = "<a href=\"/pkg/".toList ++ "\">".toList ++ "foo".toList ++ "</a>".toList :=
  hackUpDocumentation_newline_untouched "foo/bar".toList "foo".toList "bar".toList
    (by decide) (by decide) (by decide)

theorem byteLen_append (a b : List Char) : byteLen (a ++ b) = byteLen a + byteLen b := by
  simp [byteLen]

theorem byteLen_cons (c : Char) (t : List Char) : byteLen (c :: t) = c.utf8Size + byteLen t := by
  simp [byteLen]

/-- Without a replacement the input is returned as it is. -/
theorem hackUpDocumentation_of_matchCount_zero :
    ∀ (s : List Char), matchCount s = 0 → hackUpDocumentation s = s := by
  apply hackUpDocumentation_induction
  · intro _
    exact hackUpDocumentation_nil
  · intro c t hnone ih h0
    rw [matchCount_cons_of_none hnone] at h0
    rw [hackUpDocumentation_cons_of_none hnone, ih h0]
  · intro P F T rest _ _ _ _ _ hcount _ h0
    rw [hcount] at h0
    exact absurd h0 (by omega)

/-- Every replacement makes the text four runes, and four bytes, longer. -/
theorem hackUpDocumentation_length_aux :
    ∀ (s : List Char), (hackUpDocumentation s).length = s.length + 4 * matchCount s
      ∧ byteLen (hackUpDocumentation s) = byteLen s + 4 * matchCount s := by
  apply hackUpDocumentation_induction
  · rw [hackUpDocumentation_nil, matchCount_nil]
    exact ⟨rfl, rfl⟩
  · intro c t hnone ih
    rw [hackUpDocumentation_cons_of_none hnone, matchCount_cons_of_none hnone]
    refine ⟨by simp [ih.1]; omega, ?_⟩
    rw [byteLen_cons, byteLen_cons, ih.2]
    omega
  · intro P F T rest _ _ _ _ hrw hcount ih
    rw [hrw, hcount]
    have b1 : byteLen "<a href=\"/".toList = 10 := by decide
    have b2 : byteLen "pkg/".toList = 4 := by decide
    have b3 : byteLen "?tab=doc".toList = 8 := by decide
    constructor
    · simp only [List.length_append, ih.1]
      have l1 : "<a href=\"/".toList.length = 10 := by decide
      have l2 : "pkg/".toList.length = 4 := by decide
      have l3 : "?tab=doc".toList.length = 8 := by decide
      rw [l1, l2, l3]
      omega
    · simp only [byteLen_append, ih.2, b1, b2, b3]
      omega

/-- C16: each replacement removes `pkg/` and inserts `?tab=doc`, so the output is
longer than the input by 4 times the number of matches replaced, in runes and in
bytes; the output is never shorter than the input, and has the length of the
input only when it is the input. -/
theorem hackUpDocumentation_length (docBytes : List Char) :
    (hackUpDocumentation docBytes).length = docBytes.length + 4 * matchCount docBytes
      ∧ byteLen (hackUpDocumentation docBytes) = byteLen docBytes + 4 * matchCount docBytes
      ∧ docBytes.length ≤ (hackUpDocumentation docBytes).length
      ∧ byteLen docBytes ≤ byteLen (hackUpDocumentation docBytes)
      ∧ ((hackUpDocumentation docBytes).length = docBytes.length
          → hackUpDocumentation docBytes = docBytes)
      ∧ (byteLen (hackUpDocumentation docBytes) = byteLen docBytes
          → hackUpDocumentation docBytes = docBytes) := by
  obtain ⟨h1, h2⟩ := hackUpDocumentation_length_aux docBytes
  refine ⟨h1, h2, by omega, by omega, ?_, ?_⟩
  · intro h
    exact hackUpDocumentation_of_matchCount_zero docBytes (by omega)
  · intro h
    exact hackUpDocumentation_of_matchCount_zero docBytes (by omega)

/-! ## Rewritten anchors are not rewritten again -/

/-- A text in which the link pattern matches at no position, whatever follows,
is copied. -/
theorem hackUpDocumentation_copy (s : List Char) :
    ∀ (X : List Char),
      (∀ X1 X2, X = X1 ++ X2 → X2 ≠ [] → packageLinkRegexp.matchAt (X2 ++ s) = none) →
      hackUpDocumentation (X ++ s) = X ++ hackUpDocumentation s := by
  intro X
  induction X with
  | nil => intro _; rfl
  | cons c X ih =>
    intro h
    have hnone : packageLinkRegexp.matchAt (c :: (X ++ s)) = none :=
      h [] (c :: X) rfl (by simp)
    rw [List.cons_append, hackUpDocumentation_cons_of_none hnone,
      ih (fun X1 X2 e ne => h (c :: X1) X2 (by simp [e]) ne)]
    rfl

/-- The link pattern does not match a rewritten anchor: behind the path comes `?`. -/
theorem matchAt_rewritten_eq_none (P X : List Char) (hP : P ≠ [])
    (hPc : ∀ c ∈ P, c ≠ '?' ∧ c ≠ '#' ∧ c ≠ '"') :
    packageLinkRegexp.matchAt ("<a href=\"/".toList ++ (P ++ '?' :: X)) = none := by
  by_cases hpre : "pkg/".toList <+: P
  · obtain ⟨P1, rfl⟩ := hpre
    have := matchAt_query_eq_none P1 X (fun c hc => hPc c (by simp [hc]))
    rw [List.append_assoc]
    exact this
  · apply matchAt_eq_none_of_no_opener
    intro hp
    have h1 : "<a href=\"/".toList ++ "pkg/".toList <+: "<a href=\"/".toList ++ (P ++ '?' :: X) :=
      hp
    rw [List.prefix_append_right_inj] at h1
    exact hpre (isPrefix_of_append_cons P "pkg/".toList X (by decide) hP h1)

/-- In a text that ends in `>`, no occurrence of `<a href="/pkg/` starts that is
not within the text before that `>`. -/
theorem no_opener_start_of_gt {Y : List Char} (hY : ¬ "<a href=\"/pkg/".toList <:+: Y)
    (s : List Char) :
    ∀ X1 X2, Y ++ ['>'] = X1 ++ X2 → X2 ≠ [] → ¬ "<a href=\"/pkg/".toList <+: X2 ++ s := by
  intro X1 X2 e ne hp
  rcases List.eq_nil_or_concat X2 with h | ⟨X3, b, h⟩
  · exact ne h
  · rw [List.concat_eq_append] at h
    subst h
    rw [← List.append_assoc] at e
    obtain ⟨e1, e2⟩ := List.append_inj' e rfl
    simp only [List.cons.injEq, and_true] at e2
    subst e2
    rw [List.append_assoc] at hp
    by_cases h3 : X3 = []
    · subst h3
      have : "<a href=\"/pkg/".toList <+: '>' :: s := hp
      have h4 : ('<' :: "a href=\"/pkg/".toList) <+: '>' :: s := this
      rw [List.cons_prefix_cons] at h4
      exact absurd h4.1 (by decide)
    · have h4 := isPrefix_of_append_cons X3 "<a href=\"/pkg/".toList s (by decide) h3 hp
      apply hY
      rw [e1]
      exact h4.isInfix.trans (List.suffix_append X1 X3).isInfix

/-- The text `<a href="/pkg/` does not occur in a rewritten anchor behind its first
rune, when it does not occur in the link text. -/
theorem no_opener_rewritten (P F T : List Char)
    (hPc : ∀ c ∈ P, c ≠ '?' ∧ c ≠ '#' ∧ c ≠ '"')
    (hF : F = [] ∨ ∃ G, F = '#' :: G ∧ '"' ∉ G)
    (hT : ¬ "<a href=\"/pkg/".toList <:+: T) :
    ¬ "<a href=\"/pkg/".toList <:+:
      "a href=\"/".toList ++ (P ++ ("?tab=doc".toList ++ (F ++ ("\">".toList ++
        (T ++ "</a".toList))))) := by
  intro hi
  have h1 : "<a href=\"/pkg/".toList <:+:
      ("a href=\"/".toList ++ P) ++ '?' :: ("tab=doc".toList ++ (F ++ ("\">".toList ++
        (T ++ "</a".toList)))) := by
    simpa using hi
  rcases isInfix_append_cons_of_not_mem (y := '?') (by decide) (by decide) _ _ h1 with h2 | h2
  · have h3 : ('<' :: "a href=\"/pkg/".toList) <:+: P :=
      isInfix_of_head_not_mem "a href=\"/".toList P (by decide) h2
    exact (hPc '"' (h3.subset (by decide))).2.2 rfl
  · have h3 : "<a href=\"/pkg/".toList <:+:
        (("tab=doc".toList ++ F) ++ ['"']) ++ '>' :: (T ++ "</a".toList) := by
      simpa using h2
    rcases isInfix_append_cons_of_not_mem (y := '>') (by decide) (by decide) _ _ h3 with h4 | h4
    · have h5 := isInfix_concat_of_getLast (by decide) (by decide) h4
      have h6 : '"' ∈ "tab=doc".toList ++ F := h5.subset (by decide)
      rw [List.mem_append] at h6
      rcases h6 with h7 | h7
      · exact absurd h7 (by decide)
      · rcases hF with rfl | ⟨G, rfl, hG⟩
        · simp at h7
        · simp only [List.mem_cons] at h7
          rcases h7 with h8 | h8
          · exact absurd h8 (by decide)
          · exact hG h8
    · have h5 : "<a href=\"/pkg/".toList <:+: T ++ '<' :: "/a".toList := h4
      rcases isInfix_append_cons (y := '<') (by decide) T "/a".toList h5 with h6 | h6
      · exact hT h6
      · have := h6.length_le
        simp at this

/-- A rewritten anchor in front of the input is copied. -/
theorem hackUpDocumentation_rewritten (a : Anchor) (s : List Char) (ha : a.WellFormed)
    (hT : ¬ "<a href=\"/pkg/".toList <:+: a.text) :
    hackUpDocumentation (a.rewritten ++ s) = a.rewritten ++ hackUpDocumentation s := by
  obtain ⟨hP, hPc, hF, -, -⟩ := ha
  have e : a.rewritten = '<' :: (("a href=\"/".toList ++ (a.path ++ ("?tab=doc".toList ++
      (a.fragment ++ ("\">".toList ++ (a.text ++ "</a".toList)))))) ++ ['>']) := by
    simp [Anchor.rewritten]
  apply hackUpDocumentation_copy
  intro X1 X2 e2 ne
  cases X1 with
  | nil =>
    rw [List.nil_append] at e2
    rw [← e2]
    have := matchAt_rewritten_eq_none a.path
      ("tab=doc".toList ++ (a.fragment ++ ("\">".toList ++ (a.text ++ "</a>".toList))) ++ s)
      hP hPc
    have e3 : a.rewritten ++ s = "<a href=\"/".toList ++ (a.path ++ '?' ::
        ("tab=doc".toList ++ (a.fragment ++ ("\">".toList ++ (a.text ++ "</a>".toList))) ++ s)) := by
      simp [Anchor.rewritten]
    rw [e3]
    exact this
  | cons x X1 =>
    rw [e, List.cons_append, List.cons.injEq] at e2
    exact matchAt_eq_none_of_no_opener
      (no_opener_start_of_gt (no_opener_rewritten a.path a.fragment a.text hPc hF hT) s
        X1 X2 e2.2 ne)

/-- A text without `<a href="/pkg/` in front of a `<` is copied. -/
theorem hackUpDocumentation_copy_before_lt (sep Z : List Char)
    (h : ¬ "<a href=\"/pkg/".toList <:+: sep) (hZ : Z.head? = some '<') :
    hackUpDocumentation (sep ++ Z) = sep ++ hackUpDocumentation Z := by
  cases Z with
  | nil => simp at hZ
  | cons z Z =>
    simp only [List.head?_cons, Option.some.injEq] at hZ
    subst hZ
    apply hackUpDocumentation_copy
    intro X1 X2 e ne
    apply matchAt_eq_none_of_no_opener
    intro hp
    have h1 := isPrefix_of_append_cons X2 "<a href=\"/pkg/".toList Z (by decide) ne hp
    apply h
    rw [e]
    exact h1.isInfix.trans (List.suffix_append X1 X2).isInfix

/-- A well-formed anchor in front of the input is rewritten, and the rewrite goes
on behind it. -/
theorem hackUpDocumentation_source (a : Anchor) (s : List Char) (ha : a.WellFormed) :
    hackUpDocumentation (a.source ++ s) = a.rewritten ++ hackUpDocumentation s := by
  obtain ⟨hP, hPc, hF, hT, hclose⟩ := ha
  have h := replaceAllAux_anchor a.path a.fragment a.text s false hP hPc hF hT
    (first_close_of_absent hclose _)
  rw [replaceAllAux_flag true s] at h
  have e : a.source ++ s = "<a href=\"/pkg/".toList ++ (a.path ++ (a.fragment ++
      ("\">".toList ++ (a.text ++ ("</a>".toList ++ s))))) := by
    simp [Anchor.source]
  have e2 : a.rewritten = "<a href=\"/".toList ++ (a.path ++ ("?tab=doc".toList ++
      (a.fragment ++ ("\">".toList ++ (a.text ++ "</a>".toList))))) := by
    simp [Anchor.rewritten]
  rw [e, e2]
  exact h

/-- The rewrite of a sequence of well-formed anchors and texts without
`<a href="/pkg/`. -/
theorem hackUpDocumentation_interleave_source :
    ∀ (items : List (Anchor × List Char)) (sep0 : List Char),
      ¬ "<a href=\"/pkg/".toList <:+: sep0 →
      (∀ x ∈ items, x.1.WellFormed ∧ ¬ "<a href=\"/pkg/".toList <:+: x.2) →
      hackUpDocumentation (interleave Anchor.source sep0 items)
        = interleave Anchor.rewritten sep0 items := by
  intro items
  induction items with
  | nil =>
    intro sep0 h0 _
    exact replaceAllAux_of_no_opener sep0 h0 false
  | cons x items ih =>
    intro sep0 h0 hall
    obtain ⟨a, sep⟩ := x
    obtain ⟨hwf, hsep⟩ := hall (a, sep) (by simp)
    have hrest := ih sep hsep (fun y hy => hall y (by simp [hy]))
    simp only [interleave, List.append_assoc]
    rw [hackUpDocumentation_copy_before_lt sep0 _ h0 (by simp [Anchor.source]),
      hackUpDocumentation_source a _ hwf, hrest]

/-- The rewrite leaves a sequence of rewritten anchors and texts without
`<a href="/pkg/` as it is, when no link text contains `<a href="/pkg/`. -/
theorem hackUpDocumentation_interleave_rewritten :
    ∀ (items : List (Anchor × List Char)) (sep0 : List Char),
      ¬ "<a href=\"/pkg/".toList <:+: sep0 →
      (∀ x ∈ items, x.1.WellFormed ∧ ¬ "<a href=\"/pkg/".toList <:+: x.2
        ∧ ¬ "<a href=\"/pkg/".toList <:+: x.1.text) →
      hackUpDocumentation (interleave Anchor.rewritten sep0 items)
        = interleave Anchor.rewritten sep0 items := by
  intro items
  induction items with
  | nil =>
    intro sep0 h0 _
    exact replaceAllAux_of_no_opener sep0 h0 false
  | cons x items ih =>
    intro sep0 h0 hall
    obtain ⟨a, sep⟩ := x
    obtain ⟨hwf, hsep, hT⟩ := hall (a, sep) (by simp)
    have hrest := ih sep hsep (fun y hy => hall y (by simp [hy]))
    simp only [interleave, List.append_assoc]
    rw [hackUpDocumentation_copy_before_lt sep0 _ h0 (by simp [Anchor.rewritten]),
      hackUpDocumentation_rewritten a _ hwf hT, hrest]

/-- C11 as stated fails: in `<a href="/pkg/a">x<a href="/pkg/b">y</a>` the first
pass rewrites the outer anchor, whose link text holds the inner one, and a second
pass rewrites the inner anchor. -/
theorem hackUpDocumentation_idempotent_counterexample :
    hackUpDocumentation "<a href=\"/pkg/a\">x<a href=\"/pkg/b\">y</a>".toList
        = "<a href=\"/a?tab=doc\">x<a href=\"/pkg/b\">y</a>".toList
      ∧ hackUpDocumentation
          (hackUpDocumentation "<a href=\"/pkg/a\">x<a href=\"/pkg/b\">y</a>".toList)
        = "<a href=\"/a?tab=doc\">x<a href=\"/b?tab=doc\">y</a>".toList
      ∧ hackUpDocumentation
          (hackUpDocumentation "<a href=\"/pkg/a\">x<a href=\"/pkg/b\">y</a>".toList)
        ≠ hackUpDocumentation "<a href=\"/pkg/a\">x<a href=\"/pkg/b\">y</a>".toList := by
  decide

/-- C11, amended: for a sequence of well-formed internal anchors whose link texts
do not contain `<a href="/pkg/`, interleaved with arbitrary texts that do not
contain `<a href="/pkg/`, applying the rewrite to the rewritten markup changes
nothing. -/
theorem hackUpDocumentation_idempotent (sep0 : List Char) (items : List (Anchor × List Char))
    (h0 : ¬ "<a href=\"/pkg/".toList <:+: sep0)
    (hall : ∀ x ∈ items,
      x.1.WellFormed ∧ ¬ "<a href=\"/pkg/".toList <:+: x.2
        ∧ ¬ "<a href=\"/pkg/".toList <:+: x.1.text) :
    hackUpDocumentation (hackUpDocumentation (interleave Anchor.source sep0 items))
      = hackUpDocumentation (interleave Anchor.source sep0 items) := by
  have h1 : hackUpDocumentation (interleave Anchor.source sep0 items)
      = interleave Anchor.rewritten sep0 items :=
    hackUpDocumentation_interleave_source items sep0 h0
      (fun x hx => ⟨(hall x hx).1, (hall x hx).2.1⟩)
  rw [h1]
  exact hackUpDocumentation_interleave_rewritten items sep0 h0 hall

/-- An example of C11 as amended: two anchors inside a paragraph, with an external
link between them; the path of the second starts with `pkg/`. -/
theorem hackUpDocumentation_idempotent_witness :
    hackUpDocumentation (hackUpDocumentation
        (interleave Anchor.source "<p>see ".toList
          [(⟨"foo".toList, [], "foo".toList⟩, " and <a href=\"/x\">x</a>, ".toList),
           (⟨"pkg/b".toList, "#C".toList, "b.C".toList⟩, ".</p>".toList)]))
      = hackUpDocumentation
        (interleave Anchor.source "<p>see ".toList
          [(⟨"foo".toList, [], "foo".toList⟩, " and <a href=\"/x\">x</a>, ".toList),
           (⟨"pkg/b".toList, "#C".toList, "b.C".toList⟩, ".</p>".toList)])
    ∧ interleave Anchor.source "<p>see ".toList
          [(⟨"foo".toList, [], "foo".toList⟩, " and <a href=\"/x\">x</a>, ".toList),
           (⟨"pkg/b".toList, "#C".toList, "b.C".toList⟩, ".</p>".toList)]
      = ("<p>see <a href=\"/pkg/foo\">foo</a> and <a href=\"/x\">x</a>, "
          ++ "<a href=\"/pkg/pkg/b#C\">b.C</a>.</p>").toList
    ∧ hackUpDocumentation
        (interleave Anchor.source "<p>see ".toList
          [(⟨"foo".toList, [], "foo".toList⟩, " and <a href=\"/x\">x</a>, ".toList),
           (⟨"pkg/b".toList, "#C".toList, "b.C".toList⟩, ".</p>".toList)])
      = ("<p>see <a href=\"/foo?tab=doc\">foo</a> and <a href=\"/x\">x</a>, "
          ++ "<a href=\"/pkg/b?tab=doc#C\">b.C</a>.</p>").toList :=
  ⟨hackUpDocumentation_idempotent "<p>see ".toList
      [(⟨"foo".toList, [], "foo".toList⟩, " and <a href=\"/x\">x</a>, ".toList),
       (⟨"pkg/b".toList, "#C".toList, "b.C".toList⟩, ".</p>".toList)]
      (by decide)
      (by
        intro x hx
        simp only [List.mem_cons, List.mem_singleton, List.not_mem_nil, or_false] at hx
        rcases hx with rfl | rfl
        · exact ⟨⟨by decide, by decide, Or.inl rfl, by decide, by decide⟩, by decide,
            by decide⟩
        · exact ⟨⟨by decide, by decide, Or.inr ⟨"C".toList, rfl, by decide⟩, by decide,
            by decide⟩, by decide, by decide⟩),
    by decide, by decide⟩

/-! ## Counting the occurrences of a word -/

theorem countOcc_cons (pat : List Char) (c : Char) (t : List Char) :
    countOcc pat (c :: t) = (if pat <+: c :: t then 1 else 0) + countOcc pat t := by
  simp only [countOcc, List.isPrefixOf_iff_prefix]

/-- The occurrences within two texts are occurrences in the two put together. -/
theorem countOcc_append_ge (pat B : List Char) :
    ∀ (A : List Char), countOcc pat A + countOcc pat B ≤ countOcc pat (A ++ B) := by
  intro A
  induction A with
  | nil => simp [countOcc]
  | cons a A ih =>
    rw [List.cons_append, countOcc_cons, countOcc_cons]
    have : (if pat <+: a :: A then 1 else 0) ≤ (if pat <+: a :: (A ++ B) then 1 else 0) := by
      by_cases h : pat <+: a :: A
      · have h2 : pat <+: a :: (A ++ B) := h.trans (List.prefix_append (a :: A) B)
        simp [h, h2]
      · simp only [h, if_false]
        exact Nat.zero_le _
    omega

/-- The occurrences in two texts put together are those within each, when no
occurrence starts in the first and ends in the second. -/
theorem countOcc_append (pat B : List Char) :
    ∀ (A : List Char),
      (∀ A1 A2, A = A1 ++ A2 → A2 ≠ [] → pat <+: A2 ++ B → pat <+: A2) →
      countOcc pat (A ++ B) = countOcc pat A + countOcc pat B := by
  intro A
  induction A with
  | nil => intro _; simp [countOcc]
  | cons a A ih =>
    intro h
    rw [List.cons_append, countOcc_cons, countOcc_cons,
      ih (fun A1 A2 e ne hp => h (a :: A1) A2 (by simp [e]) ne hp)]
    have : (if pat <+: a :: (A ++ B) then 1 else 0) = (if pat <+: a :: A then 1 else 0) := by
      by_cases h1 : pat <+: a :: A
      · have h2 : pat <+: a :: (A ++ B) := h1.trans (List.prefix_append (a :: A) B)
        simp [h1, h2]
      · have h2 : ¬ pat <+: a :: (A ++ B) := fun hp => h1 (h [] (a :: A) rfl (by simp) hp)
        simp [h1, h2]
    omega

/-- The occurrences in `A ++ y :: B` are those within `A` and those within
`y :: B`, when `y` does not occur in the word. -/
theorem countOcc_append_cons_of_not_mem {pat : List Char} {y : Char} (hy : y ∉ pat)
    (A B : List Char) :
    countOcc pat (A ++ y :: B) = countOcc pat A + countOcc pat (y :: B) :=
  countOcc_append pat (y :: B) A (fun _ A2 _ ne hp =>
    isPrefix_of_append_cons A2 pat B (fun hm => hy (List.mem_of_mem_tail hm)) ne hp)

theorem isPrefix_append_cons_iff {y : Char} :
    ∀ (X pat : List Char) (B : List Char), y ∉ pat.dropLast →
      (pat <+: X ++ y :: B ↔ pat <+: X ++ [y]) := by
  intro X
  induction X with
  | nil =>
    intro pat B hy
    cases pat with
    | nil => simp
    | cons p ps =>
      cases ps with
      | nil => simp
      | cons q qs =>
        simp only [List.dropLast_cons₂, List.mem_cons, not_or] at hy
        simp only [List.nil_append, List.cons_prefix_cons]
        constructor
        · intro h; exact absurd h.1.symm hy.1
        · intro h; exact absurd h.1.symm hy.1
  | cons x X ih =>
    intro pat B hy
    cases pat with
    | nil => simp
    | cons p ps =>
      have hps : y ∉ ps.dropLast := by
        cases ps with
        | nil => simp
        | cons q qs =>
          simp only [List.dropLast_cons₂, List.mem_cons, not_or] at hy
          exact hy.2
      simp only [List.cons_append, List.cons_prefix_cons]
      rw [ih ps B hps]

/-- The occurrences in `A ++ y :: B` are those within `A ++ [y]` and those within
`B`, when `y` occurs in the word at its end only, or not at all. -/
theorem countOcc_append_of_last {pat : List Char} {y : Char} (hy : y ∉ pat.dropLast)
    (B : List Char) :
    ∀ (A : List Char), countOcc pat (A ++ y :: B) = countOcc pat (A ++ [y]) + countOcc pat B := by
  intro A
  induction A with
  | nil =>
    have h := isPrefix_append_cons_iff [] pat B hy
    simp only [List.nil_append] at h ⊢
    rw [countOcc_cons, countOcc_cons]
    simp only [h, countOcc]
    omega
  | cons a A ih =>
    have h := isPrefix_append_cons_iff (a :: A) pat B hy
    simp only [List.cons_append] at h ⊢
    rw [countOcc_cons, countOcc_cons, ih]
    simp only [h]
    omega

/-- A word without `<` is a prefix of the rewritten text exactly when it is a
prefix of the text. -/
theorem isPrefix_hackUpDocumentation_iff :
    ∀ (w : List Char), '<' ∉ w → ∀ (t : List Char),
      (w <+: hackUpDocumentation t ↔ w <+: t) := by
  intro w
  induction w with
  | nil => intro _ t; simp
  | cons x w ih =>
    intro hw t
    have hx : x ≠ '<' := fun e => hw (by simp [e])
    cases t with
    | nil => rw [hackUpDocumentation_nil]
    | cons d t =>
      cases hm : packageLinkRegexp.matchAt (d :: t) with
      | none =>
        rw [hackUpDocumentation_cons_of_none hm, List.cons_prefix_cons, List.cons_prefix_cons,
          ih (fun hmem => hw (by simp [hmem])) t]
      | some m =>
        obtain ⟨P, F, T, -, -, -, -, hc, hs, hcaps⟩ := matchAt_sound hm
        rw [hackUpDocumentation_of_match hm hcaps, hs, hc]
        constructor
        · intro h
          have h1 : x :: w <+: '<' :: ("a href=\"/".toList ++ (P ++ ("?tab=doc".toList ++
              (F ++ ("\">".toList ++ (T ++ "</a>".toList))))) ++ hackUpDocumentation m.rest) := h
          rw [List.cons_prefix_cons] at h1
          exact absurd h1.1 hx
        · intro h
          have h1 : x :: w <+: '<' :: ("a href=\"/".toList ++ ("pkg/".toList ++ (P ++ (F ++
              ("\">".toList ++ (T ++ "</a>".toList))))) ++ m.rest) := h
          rw [List.cons_prefix_cons] at h1
          exact absurd h1.1 hx

/-- A rune that is copied starts an occurrence in the rewritten text exactly when
it starts one in the text, for a word with no `<` behind its first rune. -/
theorem countOcc_cons_hackUpDocumentation {pat : List Char} (hpat : '<' ∉ pat.tail)
    (c : Char) (t : List Char) :
    countOcc pat (c :: hackUpDocumentation t)
      = (if pat <+: c :: t then 1 else 0) + countOcc pat (hackUpDocumentation t) := by
  rw [countOcc_cons]
  cases pat with
  | nil => simp
  | cons p w =>
    simp only [List.cons_prefix_cons, isPrefix_hackUpDocumentation_iff w hpat t]

/-- No occurrence of a word that starts with `<` starts in a text without `<`. -/
theorem countOcc_append_of_no_lt {pat : List Char} (hpat : pat.head? = some '<') (Z : List Char) :
    ∀ (L : List Char), '<' ∉ L → countOcc pat (L ++ Z) = countOcc pat Z := by
  intro L
  induction L with
  | nil => intro _; rfl
  | cons a L ih =>
    intro h
    have ha : a ≠ '<' := fun e => h (by simp [e])
    have hno : ¬ pat <+: a :: (L ++ Z) := by
      cases pat with
      | nil => simp at hpat
      | cons p ps =>
        simp only [List.head?_cons, Option.some.injEq] at hpat
        rw [List.cons_prefix_cons]
        intro hp
        exact ha (hp.1 ▸ hpat)
    rw [List.cons_append, countOcc_cons, if_neg hno, ih (fun hm => h (by simp [hm]))]
    omega

/-- The occurrences in a text that ends in `</a>`, followed by more text, are
those within it and those within what follows, for a word with no `>` before its
last rune. -/
theorem countOcc_append_close {pat : List Char} (hpat : '>' ∉ pat.dropLast)
    (M Z : List Char) :
    countOcc pat (M ++ "</a>".toList ++ Z) = countOcc pat (M ++ "</a>".toList) + countOcc pat Z := by
  have h := countOcc_append_of_last hpat Z (M ++ "</a".toList)
  have e1 : M ++ "</a>".toList ++ Z = (M ++ "</a".toList) ++ '>' :: Z := by simp
  have e2 : M ++ "</a>".toList = (M ++ "</a".toList) ++ ['>'] := by simp
  rw [e1, e2]
  exact h

/-- A rewritten anchor has as many `</a>` as the anchor. -/
theorem countOcc_close_anchor (P G3 : List Char)
    (hG : G3.head? = some '#' ∨ G3.head? = some '"') :
    countOcc "</a>".toList ("<a href=\"/".toList ++ (P ++ ("?tab=doc".toList ++ G3)))
      = countOcc "</a>".toList ("<a href=\"/".toList ++ ("pkg/".toList ++ (P ++ G3))) := by
  have hin : countOcc "</a>".toList ("<a href=\"/".toList ++ ("pkg/".toList ++ (P ++ G3)))
      = countOcc "</a>".toList P + countOcc "</a>".toList G3 := by
    have e : "<a href=\"/".toList ++ ("pkg/".toList ++ (P ++ G3))
        = '<' :: ("a href=\"/pkg/".toList ++ (P ++ G3)) := by simp
    rw [e, countOcc_cons, if_neg (by simp), Nat.zero_add,
      countOcc_append_of_no_lt (by decide) _ _ (by decide)]
    cases G3 with
    | nil => simp at hG
    | cons y G3 =>
      have hy : y ∉ "</a>".toList := by
        rcases hG with h | h <;> simp at h <;> subst h <;> decide
      exact countOcc_append_cons_of_not_mem hy P G3
  have hout : countOcc "</a>".toList ("<a href=\"/".toList ++ (P ++ ("?tab=doc".toList ++ G3)))
      = countOcc "</a>".toList P + countOcc "</a>".toList G3 := by
    have e : "<a href=\"/".toList ++ (P ++ ("?tab=doc".toList ++ G3))
        = '<' :: ("a href=\"/".toList ++ (P ++ '?' :: ("tab=doc".toList ++ G3))) := by simp
    have e2 : '?' :: ("tab=doc".toList ++ G3) = "?tab=doc".toList ++ G3 := by simp
    rw [e, countOcc_cons, if_neg (by simp), Nat.zero_add,
      countOcc_append_of_no_lt (by decide) _ _ (by decide),
      countOcc_append_cons_of_not_mem (by decide) P _, e2,
      countOcc_append_of_no_lt (by decide) _ _ (by decide)]
  rw [hin, hout]

/-- The count of `<a href="` in an anchor and in the rewritten anchor. -/
theorem countOcc_open_anchor (P G3 : List Char) :
    countOcc "<a href=\"".toList ("<a href=\"/".toList ++ (P ++ ("?tab=doc".toList ++ G3)))
        = 1 + (countOcc "<a href=\"".toList P + countOcc "<a href=\"".toList G3)
      ∧ countOcc "<a href=\"".toList ("<a href=\"/".toList ++ ("pkg/".toList ++ (P ++ G3)))
        = 1 + countOcc "<a href=\"".toList (P ++ G3) := by
  constructor
  · have e : "<a href=\"/".toList ++ (P ++ ("?tab=doc".toList ++ G3))
        = '<' :: ("a href=\"/".toList ++ (P ++ '?' :: ("tab=doc".toList ++ G3))) := by simp
    have e2 : '?' :: ("tab=doc".toList ++ G3) = "?tab=doc".toList ++ G3 := by simp
    have hp : "<a href=\"".toList <+:
        '<' :: ("a href=\"/".toList ++ (P ++ '?' :: ("tab=doc".toList ++ G3))) :=
      ⟨'/' :: (P ++ '?' :: ("tab=doc".toList ++ G3)), by simp⟩
    rw [e, countOcc_cons, if_pos hp, countOcc_append_of_no_lt (by decide) _ _ (by decide),
      countOcc_append_cons_of_not_mem (by decide) P _, e2,
      countOcc_append_of_no_lt (by decide) _ _ (by decide)]
  · have e : "<a href=\"/".toList ++ ("pkg/".toList ++ (P ++ G3))
        = '<' :: ("a href=\"/pkg/".toList ++ (P ++ G3)) := by simp
    have hp : "<a href=\"".toList <+: '<' :: ("a href=\"/pkg/".toList ++ (P ++ G3)) :=
      ⟨"/pkg/".toList ++ (P ++ G3), by simp⟩
    rw [e, countOcc_cons, if_pos hp, countOcc_append_of_no_lt (by decide) _ _ (by decide)]

/-- No `<a href="` starts in the path of an anchor and ends behind it, when the
anchor does not contain `<a href=">`. -/
theorem countOcc_open_path (P F R : List Char)
    (hF : F = [] ∨ ∃ G, F = '#' :: G ∧ '"' ∉ G)
    (hX : ¬ "<a href=\">".toList <:+: P ++ (F ++ ("\">".toList ++ R))) :
    countOcc "<a href=\"".toList (P ++ (F ++ ("\">".toList ++ R)))
      = countOcc "<a href=\"".toList P
        + countOcc "<a href=\"".toList (F ++ ("\">".toList ++ R)) := by
  apply countOcc_append
  intro A1 A2 e ne hp
  rcases hF with rfl | ⟨G, rfl, -⟩
  · have h1 : "<a href=\"".toList <+: (A2 ++ ['"']) ++ '>' :: R := by simpa using hp
    have h2 := isPrefix_of_append_cons (A2 ++ ['"']) "<a href=\"".toList R (by decide)
      (by simp) h1
    rw [List.prefix_concat_iff] at h2
    rcases h2 with h3 | h3
    · exfalso
      apply hX
      refine ⟨A1, R, ?_⟩
      rw [e]
      have : "<a href=\">".toList = "<a href=\"".toList ++ ['>'] := by decide
      rw [this, h3]
      simp
    · exact h3
  · exact isPrefix_of_append_cons A2 "<a href=\"".toList (G ++ ("\">".toList ++ R))
      (by decide) ne hp

/-- The rewrite keeps the number of `</a>`, does not raise the number of
`<a href="`, and keeps that number too where the text does not contain
`<a href=">`. -/
theorem hackUpDocumentation_counts :
    ∀ (s : List Char),
      countOcc "</a>".toList (hackUpDocumentation s) = countOcc "</a>".toList s
      ∧ countOcc "<a href=\"".toList (hackUpDocumentation s) ≤ countOcc "<a href=\"".toList s
      ∧ (¬ "<a href=\">".toList <:+: s →
          countOcc "<a href=\"".toList (hackUpDocumentation s)
            = countOcc "<a href=\"".toList s) := by
  apply hackUpDocumentation_induction
  · rw [hackUpDocumentation_nil]
    exact ⟨rfl, Nat.le_refl _, fun _ => rfl⟩
  · intro c t hnone ih
    obtain ⟨ih1, ih2, ih3⟩ := ih
    rw [hackUpDocumentation_cons_of_none hnone,
      countOcc_cons_hackUpDocumentation (by decide) c t,
      countOcc_cons_hackUpDocumentation (by decide) c t, countOcc_cons, countOcc_cons]
    refine ⟨by rw [ih1], by omega, ?_⟩
    intro hX
    rw [ih3 (fun hi => hX (List.infix_cons hi))]
  · intro P F T rest _ _ hF _ hrw _ ih
    obtain ⟨ih1, ih2, ih3⟩ := ih
    have hG : (F ++ ("\">".toList ++ (T ++ "</a>".toList))).head? = some '#'
        ∨ (F ++ ("\">".toList ++ (T ++ "</a>".toList))).head? = some '"' := by
      rcases hF with rfl | ⟨G, rfl, -⟩
      · exact Or.inr rfl
      · exact Or.inl rfl
    have ein : "<a href=\"/".toList ++ ("pkg/".toList ++ (P ++ (F ++ ("\">".toList ++
          (T ++ "</a>".toList))))) ++ rest
        = ("<a href=\"/".toList ++ ("pkg/".toList ++ (P ++ (F ++ ("\">".toList ++ T)))))
          ++ "</a>".toList ++ rest := by
      simp
    have ein2 : ("<a href=\"/".toList ++ ("pkg/".toList ++ (P ++ (F ++ ("\">".toList ++ T)))))
          ++ "</a>".toList
        = "<a href=\"/".toList ++ ("pkg/".toList ++ (P ++ (F ++ ("\">".toList ++
          (T ++ "</a>".toList))))) := by
      simp
    have eout : "<a href=\"/".toList ++ (P ++ ("?tab=doc".toList ++ (F ++ ("\">".toList ++
          (T ++ "</a>".toList))))) ++ hackUpDocumentation rest
        = ("<a href=\"/".toList ++ (P ++ ("?tab=doc".toList ++ (F ++ ("\">".toList ++ T)))))
          ++ "</a>".toList ++ hackUpDocumentation rest := by
      simp
    have eout2 : ("<a href=\"/".toList ++ (P ++ ("?tab=doc".toList ++ (F ++ ("\">".toList ++ T)))))
          ++ "</a>".toList
        = "<a href=\"/".toList ++ (P ++ ("?tab=doc".toList ++ (F ++ ("\">".toList ++
          (T ++ "</a>".toList))))) := by
      simp
    have hc := countOcc_close_anchor P (F ++ ("\">".toList ++ (T ++ "</a>".toList))) hG
    obtain ⟨ho1, ho2⟩ := countOcc_open_anchor P (F ++ ("\">".toList ++ (T ++ "</a>".toList)))
    have hge := countOcc_append_ge "<a href=\"".toList
      (F ++ ("\">".toList ++ (T ++ "</a>".toList))) P
    rw [hrw, ein, eout, countOcc_append_close (by decide), countOcc_append_close (by decide),
      countOcc_append_close (by decide), countOcc_append_close (by decide), ein2, eout2]
    refine ⟨by rw [hc, ih1], by omega, ?_⟩
    intro hX
    have hX1 : ¬ "<a href=\">".toList <:+: rest :=
      fun hi => hX (hi.trans (List.suffix_append _ rest).isInfix)
    have hX2 : ¬ "<a href=\">".toList <:+:
        P ++ (F ++ ("\">".toList ++ (T ++ "</a>".toList))) :=
      fun hi => hX (hi.trans
        ((((List.suffix_append "pkg/".toList _).trans
          (List.suffix_append "<a href=\"/".toList _)).isInfix).trans
          (List.prefix_append _ rest).isInfix))
    have hpath := countOcc_open_path P F (T ++ "</a>".toList) hF hX2
    rw [ih3 hX1, ho1, ho2, hpath]

/-- C12 as stated fails: in `<a href="/pkg/x<a href=">T</a>` the path is
`x<a href=`, so the input holds `<a href="` twice, and the rewrite, which puts
`?tab=doc` behind the path, leaves one. -/
theorem hackUpDocumentation_anchor_count_counterexample :
    hackUpDocumentation "<a href=\"/pkg/x<a href=\">T</a>".toList
        = "<a href=\"/x<a href=?tab=doc\">T</a>".toList
      ∧ countOcc "<a href=\"".toList "<a href=\"/pkg/x<a href=\">T</a>".toList = 2
      ∧ countOcc "<a href=\"".toList
          (hackUpDocumentation "<a href=\"/pkg/x<a href=\">T</a>".toList) = 1 := by
  decide

/-- C12, amended: for every input the rewrite keeps the number of occurrences of
`</a>` and does not raise the number of occurrences of `<a href="`; it keeps that
number too for every input that does not contain `<a href=">`. -/
theorem hackUpDocumentation_anchor_count (docBytes : List Char) :
    countOcc "</a>".toList (hackUpDocumentation docBytes) = countOcc "</a>".toList docBytes
      ∧ countOcc "<a href=\"".toList (hackUpDocumentation docBytes)
          ≤ countOcc "<a href=\"".toList docBytes
      ∧ (¬ "<a href=\">".toList <:+: docBytes →
          countOcc "<a href=\"".toList (hackUpDocumentation docBytes)
            = countOcc "<a href=\"".toList docBytes) :=
  hackUpDocumentation_counts docBytes

end Pkgsite
